import Mathlib

/-!
Verification of the gitmem interpreter (src/src/interpreter.cc).

The development shallowly embeds the versioned-memory engine of the gitmem
interpreter: versioned globals with commit histories (`Global`, `Globals`),
the commit / conflict / pull algebra (`commit`, `has_conflict`, `pull`),
the expression evaluator (`evaluate_expression`), the statement stepper
(`run_statement`), the thread driver (`run_thread_to_sync`), the concrete
round scheduler (`run_threads_to_sync`, fuelled for totality), and the
terminal-state equality used by the model checker (`gctx_eq`).

C++ `std::unordered_map` values are embedded as association lists (key lists
are nodup in every state the program builds; theorems that need this take it
as a hypothesis).  C++ references are embedded by explicit state passing:
every function returns the updated `GlobalContext` and `ThreadContext`.
Trieste AST `Node` pointers are embedded as values; pointer identity of a
statement block is embedded as a numeric block id (`bid`), unique per AST
node.
-/

namespace Gitmem

/-- Association-list lookup: the value of the first entry with the given key.
Embeds `std::unordered_map::at` / `contains`. -/
def lookupA {κ β : Type} [DecidableEq κ] : List (κ × β) → κ → Option β
  | [], _ => none
  | p :: ps, k => if p.1 = k then some p.2 else lookupA ps k

/-- Association-list update: replace the first entry with the given key, or
append a fresh entry if the key is absent.  Embeds assignment through
`std::unordered_map::operator[]`. -/
def setA {κ β : Type} [DecidableEq κ] : List (κ × β) → κ → β → List (κ × β)
  | [], k, b => [(k, b)]
  | p :: ps, k, b => if p.1 = k then (k, b) :: ps else p :: setA ps k b

/-! ### Commit histories and versioned globals -/

/-- A commit identifier (`using Commit = size_t`). -/
abbrev Commit := Nat

/-- A commit history (`using CommitHistory = std::vector<Commit>`). -/
abbrev CommitHistory := List Commit

/-- A versioned global variable: current value, optional pending commit,
history of committed identifiers (struct `Global`). -/
structure Global where
  val : Nat
  commit : Option Commit
  history : CommitHistory
  deriving DecidableEq, Repr

/-- A view: map from variable name to versioned global
(`using Globals = std::unordered_map<std::string, Global>`). -/
abbrev Globals := List (String × Global)

/-- Termination statuses of a thread (enum `TerminationStatus`). -/
inductive TerminationStatus where
  | completed
  | datarace_exception
  | unlock_exception
  | assertion_failure_exception
  | unassigned_variable_read_exception
  deriving DecidableEq, Repr

/-- Progress statuses (enum `ProgressStatus`). -/
inductive ProgressStatus where
  | progress
  | no_progress
  deriving DecidableEq, Repr

/-- `commit(Globals&)` (interpreter.cc:151-160): for every global with a
pending commit, append the pending identifier to its history and clear the
pending commit. -/
def commit (globals : Globals) : Globals :=
  globals.map fun p =>
    match p.2.commit with
    | some c => (p.1, { p.2 with commit := none, history := p.2.history ++ [c] })
    | none => p

/-- `has_conflict(CommitHistory&, CommitHistory&)` (interpreter.cc:168-179):
scan positions `0..min(|h1|,|h2|)`; report a conflict iff some position in the
common range holds different identifiers.  The C++ loop or-accumulates
`h1[i] != h2[i]` and stops at the first conflict; the recursion below computes
the same boolean. -/
def has_conflict : CommitHistory → CommitHistory → Bool
  | a :: as, b :: bs => a != b || has_conflict as bs
  | _, _ => false

/-- Modelled from the spec (§4.1 conflict test): the scan of positions
`0..min(|h1|,|h2|)` in order, returning the pair of commit identifiers at the
first position where the histories differ.  The C++ `has_conflict` returns
only a boolean; this definition names the spec's *conflict witness* so that
the boolean can be compared against it. -/
def conflict_witness : CommitHistory → CommitHistory → Option (Commit × Commit)
  | a :: as, b :: bs => if a ≠ b then some (a, b) else conflict_witness as bs
  | _, _ => none

/-- `pull(Globals& dst, Globals& src)` (interpreter.cc:186-211): walk the
variables of `src` in order; copy unknown variables into `dst`, fail at the
first history conflict, fast-forward `dst` when `src`'s history is strictly
longer, and otherwise leave `dst` alone.  Returns the success flag together
with the (possibly partially) updated `dst`. -/
def pull (dst : Globals) : Globals → Bool × Globals
  | [] => (true, dst)
  | (v, g) :: rest =>
    match lookupA dst v with
    | some d =>
      if has_conflict g.history d.history then (false, dst)
      else if d.history.length < g.history.length then
        pull (setA dst v { d with val := g.val, history := g.history }) rest
      else pull dst rest
    | none => pull (setA dst v { val := g.val, commit := none, history := g.history }) rest

/-- Concrete destination view used by the pull witnesses. -/
def exampleDst : Globals :=
  [("a", ⟨1, none, [0]⟩), ("b", ⟨2, some 9, [1]⟩), ("d", ⟨3, none, [5]⟩)]

/-- Concrete source view used by the pull witnesses: "a" fast-forwards, "b" is
unchanged (equal history), "c" is new. -/
def exampleSrc : Globals :=
  [("a", ⟨10, none, [0, 3]⟩), ("b", ⟨2, none, [1]⟩), ("c", ⟨4, none, [2]⟩)]

/-- A permutation of `exampleSrc`. -/
def exampleSrcPerm : Globals :=
  [("c", ⟨4, none, [2]⟩), ("b", ⟨2, none, [1]⟩), ("a", ⟨10, none, [0, 3]⟩)]

/-- Destination for the C9 counterexample: "x" will conflict, "y" can
fast-forward. -/
def raceDst : Globals := [("x", ⟨5, none, [0]⟩), ("y", ⟨7, none, []⟩)]

/-- Source for the C9 counterexample, conflicting variable first. -/
def raceSrcA : Globals := [("x", ⟨9, none, [1]⟩), ("y", ⟨8, none, [2]⟩)]

/-- The same source with the two variables in the opposite iteration order. -/
def raceSrcB : Globals := [("y", ⟨8, none, [2]⟩), ("x", ⟨9, none, [1]⟩)]

/-! ### The statement tree

The AST produced by the front-end (lang.hh well-formedness): expressions are
registers, globals, constants, spawns, equalities and inequalities;
statements are nop, assignment, join, lock, unlock and assert.  (`Add` and
`If` exist in the grammar but play no role in the claims; like any other
node they fall into `run_statement`/`evaluate_expression`'s catch-all
branches.)  Trieste `Node`s are shared pointers; pointer identity of a
spawned block and of a join expression node is embedded as a numeric id
(`bid` / `nid`), unique per AST node. -/

mutual
inductive Expr where
  | reg (name : String)
  | var (name : String)
  | const (n : Nat)
  | spawn (bid : Nat) (body : List Stmt)
  | eq (l r : Expr)
  | neq (l r : Expr)

inductive Stmt where
  | nop
  | assignReg (name : String) (e : Expr)
  | assignVar (name : String) (e : Expr)
  | join (nid : Nat) (e : Expr)
  | lock (v : String)
  | unlock (v : String)
  | assert (e : Expr)
end

/-- A statement block: the identity of the AST `Block` node paired with its
statement list. -/
abbrev Block := Nat × List Stmt

/-- `is_syncing(Node)` (interpreter.cc:141-145). -/
def is_syncing : Stmt → Bool
  | .join _ _ => true
  | .lock _ => true
  | .unlock _ => true
  | _ => false

/-- Per-thread context: registers and the thread's view of the globals
(struct `ThreadContext`). -/
structure ThreadContext where
  locals : List (String × Nat)
  globals : Globals

/-- A thread (struct `Thread`): context, statement block, program counter and
optional termination status. -/
structure Thread where
  ctx : ThreadContext
  block : Block
  pc : Nat
  terminated : Option TerminationStatus

/-- A lock (struct `Lock`): the globals published by the last unlocker and an
optional owner. -/
structure Lock where
  globals : Globals
  owner : Option Nat

/-- The process state (struct `GlobalContext`): the thread sequence (position
= thread id), the lock table, the join-expression cache (keyed by the AST
node identity of the join's expression) and the commit-id counter. -/
structure GlobalContext where
  threads : List Thread
  locks : List (String × Lock)
  cache : List (Nat × Nat)
  uuid : Nat

/-- `evaluate_expression` (interpreter.cc:216-277).  C++ mutates `gctx` and
`ctx` through references; here the updated states are returned.  The
catch-all branch ("Unknown expression", which in this source receives `Neq`)
returns 0 without evaluating subexpressions. -/
def evaluate_expression : Expr → GlobalContext → ThreadContext →
    GlobalContext × ThreadContext × (Nat ⊕ TerminationStatus)
  | .reg name, gctx, ctx =>
    match lookupA ctx.locals name with
    | some v => (gctx, ctx, .inl v)
    | none => (gctx, ctx, .inr .unassigned_variable_read_exception)
  | .var name, gctx, ctx =>
    match lookupA ctx.globals name with
    | some g => (gctx, ctx, .inl g.val)
    | none => (gctx, ctx, .inr .unassigned_variable_read_exception)
  | .const n, gctx, ctx => (gctx, ctx, .inl n)
  | .spawn bid body, gctx, ctx =>
    let ctx' : ThreadContext := { ctx with globals := commit ctx.globals }
    let tid := gctx.threads.length
    let newThread : Thread := ⟨⟨[], ctx'.globals⟩, (bid, body), 0, none⟩
    ({ gctx with threads := gctx.threads ++ [newThread] }, ctx', .inl tid)
  | .eq l r, gctx, ctx =>
    match evaluate_expression l gctx ctx with
    | (gctx₁, ctx₁, .inr t) => (gctx₁, ctx₁, .inr t)
    | (gctx₁, ctx₁, .inl vl) =>
      match evaluate_expression r gctx₁ ctx₁ with
      | (gctx₂, ctx₂, .inr t) => (gctx₂, ctx₂, .inr t)
      | (gctx₂, ctx₂, .inl vr) => (gctx₂, ctx₂, .inl (if vl = vr then 1 else 0))
  | .neq _ _, gctx, ctx => (gctx, ctx, .inl 0)

/-- The join/lock pull step shared by `Join` (interpreter.cc:346-362): if the
joined thread completed, commit both views, pull joinee → joiner, and fail
with a datarace on conflict; otherwise wait.  An out-of-bounds thread index
is undefined behaviour in the C++ (`gctx.threads[result]`); it is modelled as
waiting. -/
def join_pull (gctx : GlobalContext) (ctx : ThreadContext) (result : Nat) :
    GlobalContext × ThreadContext × (ProgressStatus ⊕ TerminationStatus) :=
  match gctx.threads.get? result with
  | none => (gctx, ctx, .inl .no_progress)
  | some thread =>
    if thread.terminated = some .completed then
      let ctx' : ThreadContext := { ctx with globals := commit ctx.globals }
      let joined : Thread :=
        { thread with ctx := { thread.ctx with globals := commit thread.ctx.globals } }
      let gctx' : GlobalContext := { gctx with threads := gctx.threads.set result joined }
      let res := pull ctx'.globals joined.ctx.globals
      let ctx'' : ThreadContext := { ctx' with globals := res.2 }
      if res.1 then (gctx', ctx'', .inl .progress)
      else (gctx', ctx'', .inr .datarace_exception)
    else (gctx, ctx, .inl .no_progress)

/-- `run_statement` (interpreter.cc:283-436). -/
def run_statement : Stmt → GlobalContext → ThreadContext → Nat →
    GlobalContext × ThreadContext × (ProgressStatus ⊕ TerminationStatus)
  | .nop, gctx, ctx, _ => (gctx, ctx, .inl .progress)
  | .assignReg name e, gctx, ctx, _ =>
    match evaluate_expression e gctx ctx with
    | (gctx', ctx', .inr t) => (gctx', ctx', .inr t)
    | (gctx', ctx', .inl v) =>
      (gctx', { ctx' with locals := setA ctx'.locals name v }, .inl .progress)
  | .assignVar name e, gctx, ctx, _ =>
    match evaluate_expression e gctx ctx with
    | (gctx', ctx', .inr t) => (gctx', ctx', .inr t)
    | (gctx', ctx', .inl v) =>
      let old := (lookupA ctx'.globals name).getD ⟨0, none, []⟩
      let g' : Global := { old with val := v, commit := some gctx'.uuid }
      ({ gctx' with uuid := gctx'.uuid + 1 },
       { ctx' with globals := setA ctx'.globals name g' }, .inl .progress)
  | .join nid e, gctx, ctx, _ =>
    match lookupA gctx.cache nid with
    | some result => join_pull gctx ctx result
    | none =>
      match evaluate_expression e gctx ctx with
      | (gctx', ctx', .inr t) => (gctx', ctx', .inr t)
      | (gctx', ctx', .inl v) =>
        join_pull { gctx' with cache := setA gctx'.cache nid v } ctx' v
  | .lock v, gctx, ctx, tid =>
    let lk := (lookupA gctx.locks v).getD ⟨[], none⟩
    let gctx₀ : GlobalContext :=
      match lookupA gctx.locks v with
      | some _ => gctx
      | none => { gctx with locks := setA gctx.locks v ⟨[], none⟩ }
    match lk.owner with
    | some _ => (gctx₀, ctx, .inl .no_progress)
    | none =>
      let gctx₁ : GlobalContext :=
        { gctx₀ with locks := setA gctx₀.locks v { lk with owner := some tid } }
      let ctx₁ : ThreadContext := { ctx with globals := commit ctx.globals }
      let res := pull ctx₁.globals lk.globals
      let ctx₂ : ThreadContext := { ctx₁ with globals := res.2 }
      if res.1 then (gctx₁, ctx₂, .inl .progress)
      else (gctx₁, ctx₂, .inr .datarace_exception)
  | .unlock v, gctx, ctx, tid =>
    let ctx₁ : ThreadContext := { ctx with globals := commit ctx.globals }
    let lk := (lookupA gctx.locks v).getD ⟨[], none⟩
    let gctx₀ : GlobalContext :=
      match lookupA gctx.locks v with
      | some _ => gctx
      | none => { gctx with locks := setA gctx.locks v ⟨[], none⟩ }
    if lk.owner = some tid then
      ({ gctx₀ with locks := setA gctx₀.locks v ⟨ctx₁.globals, none⟩ }, ctx₁, .inl .progress)
    else (gctx₀, ctx₁, .inr .unlock_exception)
  | .assert e, gctx, ctx, _ =>
    match evaluate_expression e gctx ctx with
    | (gctx', ctx', .inr t) => (gctx', ctx', .inr t)
    | (gctx', ctx', .inl v) =>
      if v ≠ 0 then (gctx', ctx', .inl .progress)
      else (gctx', ctx', .inr .assertion_failure_exception)

/-- Write the running thread's context, pc and termination status back into
the global context.  C++ mutates the thread record continuously through
references; nothing reads the running thread's own record between sync
points, so writing back at every exit of the loop is equivalent. -/
def write_back (gctx : GlobalContext) (tid : Nat) (ctx : ThreadContext) (pc : Nat)
    (term : Option TerminationStatus) : GlobalContext :=
  match gctx.threads.get? tid with
  | some t =>
    { gctx with threads := gctx.threads.set tid { t with ctx := ctx, pc := pc, terminated := term } }
  | none => gctx

/-- The statement loop of `run_thread_to_sync` (interpreter.cc:451-474):
run statements from `pc`; stop before a syncing statement unless it is the
first of the invocation; propagate termination; on no-progress return
progress iff a statement was executed; past the end mark completed. -/
def run_thread_loop (tid : Nat) (block : List Stmt) (gctx : GlobalContext)
    (ctx : ThreadContext) (pc : Nat) (first : Bool) :
    GlobalContext × (ProgressStatus ⊕ TerminationStatus) :=
  if h : pc < block.length then
    let stmt := block.get ⟨pc, h⟩
    if !first && is_syncing stmt then
      (write_back gctx tid ctx pc none, .inl .progress)
    else
      match run_statement stmt gctx ctx tid with
      | (gctx', ctx', .inr t) => (write_back gctx' tid ctx' pc (some t), .inr t)
      | (gctx', ctx', .inl .no_progress) =>
        (write_back gctx' tid ctx' pc none,
         .inl (if first then .no_progress else .progress))
      | (gctx', ctx', .inl .progress) => run_thread_loop tid block gctx' ctx' (pc + 1) false
  else
    (write_back gctx tid ctx pc (some .completed), .inr .completed)
termination_by block.length - pc
decreasing_by omega

/-- `run_thread_to_sync` (interpreter.cc:442-475). -/
def run_thread_to_sync (gctx : GlobalContext) (tid : Nat) :
    GlobalContext × (ProgressStatus ⊕ TerminationStatus) :=
  match gctx.threads.get? tid with
  | none => (gctx, .inl .no_progress)
  | some thread =>
    match thread.terminated with
    | some t => (gctx, .inr t)
    | none => run_thread_loop tid thread.block.2 gctx thread.ctx thread.pc true

/-- Reference notion for C3: run exactly `k` statements from `pc`, each of
which must return `progress`; used to state that `run_thread_to_sync`
executes statements one at a time. -/
def execProg (tid : Nat) (block : List Stmt) :
    Nat → GlobalContext × ThreadContext × Nat → Option (GlobalContext × ThreadContext × Nat)
  | 0, s => some s
  | k + 1, (gctx, ctx, pc) =>
    match block.get? pc with
    | none => none
    | some stmt =>
      match run_statement stmt gctx ctx tid with
      | (gctx', ctx', .inl .progress) => execProg tid block k (gctx', ctx', pc + 1)
      | _ => none

/-- `operator||` on `ProgressStatus` (interpreter.cc:134-137). -/
def ProgressStatus.or : ProgressStatus → ProgressStatus → ProgressStatus
  | .progress, _ => .progress
  | _, .progress => .progress
  | _, _ => .no_progress

/-- The round loop of `run_threads_to_sync` (interpreter.cc:479-513): iterate
threads in id order, re-reading the (growing) thread count each iteration,
skipping terminated threads, accumulating whether every thread run this round
terminated and whether any progressed.  The C++ loop needs no fuel; the fuel
parameter only guards Lean totality and `none` is returned on exhaustion. -/
def run_threads_loop : Nat → GlobalContext → Nat → Bool → ProgressStatus →
    Option (GlobalContext × (ProgressStatus ⊕ TerminationStatus))
  | 0, _, _, _, _ => none
  | fuel + 1, gctx, i, allComp, anyProg =>
    match gctx.threads.get? i with
    | none => some (if allComp then (gctx, .inr .completed) else (gctx, .inl anyProg))
    | some thread =>
      if thread.terminated.isSome then
        run_threads_loop fuel gctx (i + 1) allComp anyProg
      else
        match run_thread_to_sync gctx i with
        | (gctx', .inl p) =>
          let termAfter :=
            match gctx'.threads.get? i with
            | some th' => th'.terminated.isSome
            | none => false
          run_threads_loop fuel gctx' (i + 1) (allComp && termAfter) (anyProg.or p)
        | (gctx', .inr t) =>
          let gctx'' :=
            match gctx'.threads.get? i with
            | some th' => { gctx' with threads := gctx'.threads.set i { th' with terminated := some t } }
            | none => gctx'
          run_threads_loop fuel gctx'' (i + 1) allComp (anyProg.or .progress)

/-- `run_threads_to_sync` (interpreter.cc:479-513), fuelled. -/
def run_threads_to_sync (fuel : Nat) (gctx : GlobalContext) :
    Option (GlobalContext × (ProgressStatus ⊕ TerminationStatus)) :=
  run_threads_loop fuel gctx 0 true .no_progress

/-- `is_finished` (interpreter.cc:515-524). -/
def is_finished : ProgressStatus ⊕ TerminationStatus → Bool
  | .inl p => p == .no_progress
  | .inr _ => true

/-- Fold `run_thread_to_sync` over a schedule (a list of thread ids).  Each
scheduling step of the drivers — `run_threads_to_sync`'s inner calls, and the
model checker's per-trace-node step (interpreter.cc:920,933,945) — is one such
application. -/
def runSchedule (gctx : GlobalContext) (sched : List Nat) : GlobalContext :=
  sched.foldl (fun g t => (run_thread_to_sync g t).1) gctx

/-- C10's "poisoned lock" configuration: lock `v` is owned by thread `tid`,
and thread `tid` is terminated (so no unlock of `v` can ever succeed). -/
def lockStuck (gctx : GlobalContext) (v : String) (tid : Nat) : Prop :=
  (∃ lk, lookupA gctx.locks v = some lk ∧ lk.owner = some tid) ∧
  (∃ th, gctx.threads.get? tid = some th ∧ th.terminated.isSome)

/-! ### Terminal-state equality (model checker) -/

/-- `std::unordered_map` equality on the register maps (same size, and every
entry of the first is present with an equal value in the second; map keys are
unique, making this symmetric). -/
def locals_eq (l1 l2 : List (String × Nat)) : Bool :=
  l1.length == l2.length && l1.all fun p => lookupA l2 p.1 == some p.2

/-- The globals comparison of `Thread::operator==` (interpreter.cc:67-83):
histories and pending commits are ignored, only sizes and per-variable values
are compared. -/
def global_vals_eq (g1 g2 : Globals) : Bool :=
  g1.length == g2.length &&
  g1.all fun p =>
    match lookupA g2 p.1 with
    | some q => p.2.val == q.val
    | none => false

/-- `Thread::operator==` (interpreter.cc:67-83).  `block == other.block` is
shared-pointer identity in C++, embedded as equality of block ids. -/
def thread_eq (t1 t2 : Thread) : Bool :=
  global_vals_eq t1.ctx.globals t2.ctx.globals &&
  locals_eq t1.ctx.locals t2.ctx.locals &&
  t1.block.1 == t2.block.1 &&
  t1.pc == t2.pc &&
  t1.terminated == t2.terminated

/-- `GlobalContext::operator==` (interpreter.cc:103-124): equal thread and
lock counts; each thread matched against the first thread of the other
context with the same block identity; each lock present in the other context
with the same owner. -/
def gctx_eq (g1 g2 : GlobalContext) : Bool :=
  g1.threads.length == g2.threads.length &&
  g1.locks.length == g2.locks.length &&
  (g1.threads.all fun t =>
    match g2.threads.find? (fun t2 => t2.block.1 == t.block.1) with
    | some t2 => thread_eq t t2
    | none => false) &&
  (g1.locks.all fun p =>
    match lookupA g2.locks p.1 with
    | some l2 => p.2.owner == l2.owner
    | none => false)

/-- The spec-side reading of thread matching in terminal-state equality:
identical statement-block reference (block node identity, embedded as the
block id), equal pc, equal termination status, equal registers, and globals
agreeing on *value* for every variable name — histories and pending commit
identifiers ignored. -/
def thread_match (t1 t2 : Thread) : Prop :=
  t1.block.1 = t2.block.1 ∧ t1.pc = t2.pc ∧ t1.terminated = t2.terminated ∧
  (∀ r, lookupA t1.ctx.locals r = lookupA t2.ctx.locals r) ∧
  (∀ v, (lookupA t1.ctx.globals v).map Global.val =
    (lookupA t2.ctx.globals v).map Global.val)

/-! ### Concrete states for witnesses and counterexamples -/

/-- The empty process state. -/
def emptyGctx : GlobalContext := ⟨[], [], [], 0⟩

/-- The empty thread context. -/
def emptyTctx : ThreadContext := ⟨[], []⟩

/-- Body of the spawned thread in the spawn scenario. -/
def spawnBody : List Stmt := [.nop]

/-- Main block of the spawn scenario: spawn a thread, then hit a sync point
(`lock m`), leaving the spawned thread un-advanced in the model checker's
step. -/
def spawnMain : List Stmt := [.assignReg "$t" (.spawn 1 spawnBody), .lock "m", .nop]

/-- Initial state of the spawn scenario: only the root thread. -/
def spawnGctx : GlobalContext := ⟨[⟨emptyTctx, (0, spawnMain), 0, none⟩], [], [], 0⟩

/-- State for the join-on-errored-thread scenario: thread 0 is about to join
thread 1 (target cached under the join expression's node id 5), and thread 1
terminated with a datarace. -/
def joinErrGctx : GlobalContext :=
  ⟨[⟨emptyTctx, (0, [.join 5 (.const 1)]), 0, none⟩,
    ⟨emptyTctx, (1, [.nop]), 0, some .datarace_exception⟩],
   [], [(5, 1)], 0⟩

/-- State for the poisoned-lock scenario: thread 0 is about to lock "m"; its
view of "x" has history `[0]` while the lock's stored view has history `[1]`,
so the pull will conflict. -/
def lockRaceGctx : GlobalContext :=
  ⟨[⟨⟨[], [("x", ⟨5, none, [0]⟩)]⟩, (0, [.lock "m"]), 0, none⟩,
    ⟨emptyTctx, (1, [.lock "m", .nop]), 0, none⟩],
   [("m", ⟨[("x", ⟨9, none, [1]⟩)], none⟩)], [], 0⟩

/-- The poisoned-lock scenario after the datarace: thread 0 terminated with a
datarace while still owning "m". -/
def lockStuckGctx : GlobalContext :=
  ⟨[⟨⟨[], [("x", ⟨5, none, [0]⟩)]⟩, (0, [.lock "m"]), 0, some .datarace_exception⟩,
    ⟨emptyTctx, (1, [.lock "m", .nop]), 0, none⟩],
   [("m", ⟨[("x", ⟨9, none, [1]⟩)], some 0⟩)], [], 0⟩

/-- A thread for the terminal-state-equality witness. -/
def eqThreadA : Thread :=
  ⟨⟨[("$r", 1)], [("x", ⟨3, some 7, [0, 1]⟩)]⟩, (0, [.nop]), 1, some .completed⟩

/-- The same thread as seen in another schedule: same value of "x", but a
different history and pending commit (both ignored by the equality). -/
def eqThreadA' : Thread :=
  ⟨⟨[("$r", 1)], [("x", ⟨3, none, [4]⟩)]⟩, (0, [.nop]), 1, some .completed⟩

/-- A second thread for the terminal-state-equality witness. -/
def eqThreadB : Thread :=
  ⟨⟨[], []⟩, (1, [.lock "m"]), 0, none⟩

/-- First terminal state: threads in spawn order A, B. -/
def eqG1 : GlobalContext :=
  ⟨[eqThreadA, eqThreadB], [("m", ⟨[("y", ⟨2, none, [3]⟩)], none⟩)], [], 5⟩

/-- Second terminal state: threads in the other order, different lock-stored
globals, caches and uuid (all ignored by the equality). -/
def eqG2 : GlobalContext :=
  ⟨[eqThreadB, eqThreadA'], [("m", ⟨[], none⟩)], [], 9⟩

/-! ### Association-list lemmas -/

theorem lookupA_setA_self {κ β : Type} [DecidableEq κ] (m : List (κ × β)) (k : κ) (b : β) :
    lookupA (setA m k b) k = some b := by
  induction m with
  | nil => simp [setA, lookupA]
  | cons p ps ih =>
    by_cases h : p.1 = k <;> simp [setA, lookupA, h, ih]

theorem lookupA_setA_ne {κ β : Type} [DecidableEq κ] (m : List (κ × β)) (k k' : κ) (b : β)
    (h : k' ≠ k) : lookupA (setA m k b) k' = lookupA m k' := by
  have hk : ¬(k = k') := fun hkk => h hkk.symm
  induction m with
  | nil => simp [setA, lookupA, hk]
  | cons p ps ih =>
    by_cases hp : p.1 = k
    · simp [setA, lookupA, hp, hk]
    · by_cases hp' : p.1 = k' <;> simp [setA, lookupA, hp, hp', ih, hk, h]

theorem lookupA_mem {κ β : Type} [DecidableEq κ] {m : List (κ × β)} {k : κ} {b : β}
    (h : lookupA m k = some b) : (k, b) ∈ m := by
  induction m with
  | nil => simp [lookupA] at h
  | cons p ps ih =>
    by_cases hp : p.1 = k
    · simp only [lookupA, hp, if_pos] at h
      have : p = (k, b) := by
        cases p with
        | mk a c =>
          simp at hp h
          simp [hp, h]
      exact this ▸ List.mem_cons_self _ _
    · simp only [lookupA, hp, if_neg, not_false_iff] at h
      exact List.mem_cons_of_mem _ (ih h)

theorem lookupA_eq_none {κ β : Type} [DecidableEq κ] (m : List (κ × β)) (k : κ) :
    lookupA m k = none ↔ k ∉ m.map Prod.fst := by
  induction m with
  | nil => simp [lookupA]
  | cons p ps ih =>
    by_cases hp : p.1 = k
    · simp [lookupA, hp]
    · rw [lookupA, if_neg hp, ih]
      simp only [List.map_cons, List.mem_cons, not_or]
      constructor
      · intro h
        exact ⟨fun hk => hp hk.symm, h⟩
      · intro h
        exact h.2

theorem lookupA_of_mem_nodup {κ β : Type} [DecidableEq κ] {m : List (κ × β)} {k : κ} {b : β}
    (hnd : (m.map Prod.fst).Nodup) (h : (k, b) ∈ m) : lookupA m k = some b := by
  induction m with
  | nil => simp at h
  | cons p ps ih =>
    simp only [List.map_cons, List.nodup_cons] at hnd
    rcases List.mem_cons.mp h with h | h
    · subst h; simp [lookupA]
    · have hne : p.1 ≠ k := by
        intro hk
        exact hnd.1 (hk ▸ (List.mem_map.mpr ⟨(k, b), h, rfl⟩))
      simp [lookupA, hne, ih hnd.2 h]

/-! ### C2: the conflict test -/

theorem has_conflict_eq_false_iff (h1 h2 : CommitHistory) :
    has_conflict h1 h2 = false ↔ h1 <+: h2 ∨ h2 <+: h1 := by
  induction h1 generalizing h2 with
  | nil => simp [has_conflict, List.nil_prefix]
  | cons a as ih =>
    cases h2 with
    | nil => simp [has_conflict, List.nil_prefix]
    | cons b bs =>
      simp only [has_conflict, Bool.or_eq_false_iff, bne_eq_false_iff_eq, ih]
      constructor
      · rintro ⟨hab, h | h⟩
        · exact Or.inl (by subst hab; exact List.cons_prefix_cons.mpr ⟨rfl, h⟩)
        · exact Or.inr (by subst hab; exact List.cons_prefix_cons.mpr ⟨rfl, h⟩)
      · rintro (h | h)
        · rcases List.cons_prefix_cons.mp h with ⟨hab, h⟩
          exact ⟨hab, Or.inl h⟩
        · rcases List.cons_prefix_cons.mp h with ⟨hab, h⟩
          exact ⟨hab.symm, Or.inr h⟩

theorem has_conflict_true_first_diff {h1 h2 : CommitHistory}
    (h : has_conflict h1 h2 = true) :
    ∃ i, i < min h1.length h2.length ∧
      (∀ j, j < i → h1.getD j 0 = h2.getD j 0) ∧
      h1.getD i 0 ≠ h2.getD i 0 ∧
      conflict_witness h1 h2 = some (h1.getD i 0, h2.getD i 0) := by
  induction h1 generalizing h2 with
  | nil => simp [has_conflict] at h
  | cons a as ih =>
    cases h2 with
    | nil => simp [has_conflict] at h
    | cons b bs =>
      by_cases hab : a = b
      · subst hab
        have h' : has_conflict as bs = true := by
          simpa [has_conflict] using h
        obtain ⟨i, hi, hfirst, hdiff, hw⟩ := ih h'
        refine ⟨i + 1, ?_, ?_, ?_, ?_⟩
        · simp only [List.length_cons, Nat.lt_min] at hi ⊢
          omega
        · intro j hj
          cases j with
          | zero => simp
          | succ j' => simpa using hfirst j' (by omega)
        · simpa using hdiff
        · simpa [conflict_witness] using hw
      · exact ⟨0, by simp [Nat.lt_min], fun j hj => absurd hj (Nat.not_lt_zero j),
          by simpa using hab, by simp [conflict_witness, hab]⟩

/-- C2: the conflict test reports no conflict iff one history is a prefix of
the other; when it reports a conflict there is a first position in the common
range where the histories differ, and the pair of commit identifiers at that
position is the conflict witness the spec's scan returns. -/
theorem conflict_test_spec (h1 h2 : CommitHistory) :
    (has_conflict h1 h2 = false ↔ h1 <+: h2 ∨ h2 <+: h1) ∧
    (has_conflict h1 h2 = true →
      ∃ i, i < min h1.length h2.length ∧
        (∀ j, j < i → h1.getD j 0 = h2.getD j 0) ∧
        h1.getD i 0 ≠ h2.getD i 0 ∧
        conflict_witness h1 h2 = some (h1.getD i 0, h2.getD i 0)) :=
  ⟨has_conflict_eq_false_iff h1 h2, has_conflict_true_first_diff⟩

/-- C2 witness: a concrete conflicting pair of histories, `[0, 1]` against
`[0, 2]`, with the witness pair `(1, 2)` found at position 1. -/
theorem conflict_test_spec_witness :
    (has_conflict [0, 1] [0, 2] = false ↔ [0, 1] <+: [0, 2] ∨ [0, 2] <+: [0, 1]) ∧
    (has_conflict [0, 1] [0, 2] = true →
      ∃ i, i < min (List.length [0, 1]) (List.length [0, 2]) ∧
        (∀ j, j < i → List.getD [0, 1] j 0 = List.getD [0, 2] j 0) ∧
        List.getD [0, 1] i 0 ≠ List.getD [0, 2] i 0 ∧
        conflict_witness [0, 1] [0, 2] = some (List.getD [0, 1] i 0, List.getD [0, 2] i 0)) :=
  conflict_test_spec [0, 1] [0, 2]

/-! ### C8: the commit operation -/

theorem commit_no_pending (g : Globals) :
    ∀ p ∈ commit g, p.2.commit = none := by
  intro p hp
  simp only [commit, List.mem_map] at hp
  obtain ⟨q, _, hq⟩ := hp
  cases hc : q.2.commit <;> subst hq <;> simp [hc]

theorem commit_of_no_pending {g : Globals} (h : ∀ p ∈ g, p.2.commit = none) :
    commit g = g := by
  induction g with
  | nil => rfl
  | cons p ps ih =>
    have hp : p.2.commit = none := h p (List.mem_cons_self _ _)
    simp only [commit, List.map_cons, hp]
    have := ih fun q hq => h q (List.mem_cons_of_mem _ hq)
    simpa [commit] using this

theorem lookupA_commit (g : Globals) (v : String) :
    (lookupA (commit g) v).map Global.val = (lookupA g v).map Global.val := by
  induction g with
  | nil => rfl
  | cons p ps ih =>
    by_cases hp : p.1 = v
    · cases hc : p.2.commit <;> simp [commit, lookupA, hp, hc]
    · cases hc : p.2.commit <;> simpa [commit, lookupA, hp, hc] using ih

/-- C8: `commit` is idempotent — applying it twice equals applying it once —
it is the identity on views without pending commits, and it never changes any
variable's value. -/
theorem commit_spec (g : Globals) :
    commit (commit g) = commit g ∧
    ((∀ p ∈ g, p.2.commit = none) → commit g = g) ∧
    (∀ v, (lookupA (commit g) v).map Global.val = (lookupA g v).map Global.val) :=
  ⟨commit_of_no_pending (commit_no_pending g),
   fun h => commit_of_no_pending h,
   lookupA_commit g⟩

/-- C8 witness: the commit properties evaluated on concrete views — a view
with one pending and one committed global for idempotence and value
preservation, and a pending-free view (hypothesis discharged by computation)
for the identity property. -/
theorem commit_spec_witness :
    commit (commit [("x", ⟨4, some 7, [1]⟩), ("y", ⟨2, none, [0]⟩)]) =
      commit [("x", ⟨4, some 7, [1]⟩), ("y", ⟨2, none, [0]⟩)] ∧
    commit [("y", ⟨2, none, [0]⟩)] = [("y", ⟨2, none, [0]⟩)] ∧
    (∀ v, (lookupA (commit [("x", ⟨4, some 7, [1]⟩), ("y", ⟨2, none, [0]⟩)]) v).map
        Global.val =
      (lookupA [("x", ⟨4, some 7, [1]⟩), ("y", ⟨2, none, [0]⟩)] v).map Global.val) :=
  ⟨(commit_spec [("x", ⟨4, some 7, [1]⟩), ("y", ⟨2, none, [0]⟩)]).1,
   (commit_spec [("y", ⟨2, none, [0]⟩)]).2.1 (by decide),
   (commit_spec [("x", ⟨4, some 7, [1]⟩), ("y", ⟨2, none, [0]⟩)]).2.2⟩

/-! ### C1 and C9: the pull operation -/

theorem pull_cons (dst : Globals) (v : String) (g : Global) (rest : Globals) :
    pull dst ((v, g) :: rest) =
      match lookupA dst v with
      | some d =>
        if has_conflict g.history d.history then (false, dst)
        else if d.history.length < g.history.length then
          pull (setA dst v { d with val := g.val, history := g.history }) rest
        else pull dst rest
      | none =>
        pull (setA dst v { val := g.val, commit := none, history := g.history }) rest := rfl

theorem lookupA_setA_of_mem_rest {rest : Globals} {w : String}
    (hw : w ∉ rest.map Prod.fst) (dst : Globals) (x : Global) {p : String × Global}
    (hp : p ∈ rest) : lookupA (setA dst w x) p.1 = lookupA dst p.1 := by
  apply lookupA_setA_ne
  intro h
  exact hw (h ▸ List.mem_map.mpr ⟨p, hp, rfl⟩)

theorem pull_lookup_of_not_mem_src (src : Globals) (dst : Globals) (v : String)
    (h : lookupA src v = none) : lookupA (pull dst src).2 v = lookupA dst v := by
  induction src generalizing dst with
  | nil => rfl
  | cons q rest ih =>
    obtain ⟨w, g⟩ := q
    have hne : ¬(w = v) := by
      intro hw
      simp [lookupA, hw] at h
    have hrest : lookupA rest v = none := by
      simpa [lookupA, hne] using h
    have hvw : v ≠ w := fun hv => hne hv.symm
    rw [pull_cons]
    cases hld : lookupA dst w with
    | some d =>
      by_cases hc : has_conflict g.history d.history = true
      · simp [hc, hld]
      · simp only [hc, Bool.false_eq_true, if_false, eq_self_iff_true]
        simp only [Bool.not_eq_true] at hc
        by_cases hff : d.history.length < g.history.length
        · simp only [hff, if_true, hc, Bool.false_eq_true, if_false]
          rw [ih _ hrest]
          exact lookupA_setA_ne dst w v _ hvw
        · simp only [hff, if_false, hc, Bool.false_eq_true]
          exact ih _ hrest
    | none =>
      rw [ih _ hrest]
      exact lookupA_setA_ne dst w v _ hvw

theorem pull_fst_true_iff (src : Globals) (hnd : (src.map Prod.fst).Nodup)
    (dst : Globals) :
    (pull dst src).1 = true ↔
      ∀ p ∈ src, ∀ d, lookupA dst p.1 = some d →
        has_conflict p.2.history d.history = false := by
  induction src generalizing dst with
  | nil => simp [pull]
  | cons q rest ih =>
    obtain ⟨w, g⟩ := q
    simp only [List.map_cons, List.nodup_cons] at hnd
    have hw : w ∉ rest.map Prod.fst := hnd.1
    rw [pull_cons]
    cases hld : lookupA dst w with
    | some d =>
      by_cases hc : has_conflict g.history d.history = true
      · simp only [hc, if_true]
        constructor
        · intro h
          exact absurd h (by simp)
        · intro h
          have := h (w, g) (List.mem_cons_self _ _) d hld
          rw [hc] at this
          exact absurd this (by simp)
      · simp only [Bool.not_eq_true] at hc
        have head_ok : ∀ d', lookupA dst w = some d' →
            has_conflict g.history d'.history = false := by
          intro d' hd'
          rw [hld] at hd'
          injection hd' with hd'
          exact hd' ▸ hc
        by_cases hff : d.history.length < g.history.length
        · simp only [hc, Bool.false_eq_true, if_false, hff, if_true]
          rw [ih hnd.2 (setA dst w { d with val := g.val, history := g.history })]
          constructor
          · intro h
            intro p hp d' hd'
            rcases List.mem_cons.mp hp with hph | hpr
            · subst hph
              exact head_ok d' hd'
            · exact h p hpr d' (by rw [lookupA_setA_of_mem_rest hw dst _ hpr]; exact hd')
          · intro h p hp d' hd'
            rw [lookupA_setA_of_mem_rest hw dst _ hp] at hd'
            exact h p (List.mem_cons_of_mem _ hp) d' hd'
        · simp only [hc, Bool.false_eq_true, if_false, hff]
          rw [ih hnd.2 dst]
          constructor
          · intro h p hp d' hd'
            rcases List.mem_cons.mp hp with hph | hpr
            · subst hph
              exact head_ok d' hd'
            · exact h p hpr d' hd'
          · intro h p hp d' hd'
            exact h p (List.mem_cons_of_mem _ hp) d' hd'
    | none =>
      rw [ih hnd.2 (setA dst w { val := g.val, commit := none, history := g.history })]
      constructor
      · intro h p hp d' hd'
        rcases List.mem_cons.mp hp with hph | hpr
        · subst hph
          rw [hld] at hd'
          cases hd'
        · exact h p hpr d' (by rw [lookupA_setA_of_mem_rest hw dst _ hpr]; exact hd')
      · intro h p hp d' hd'
        rw [lookupA_setA_of_mem_rest hw dst _ hp] at hd'
        exact h p (List.mem_cons_of_mem _ hp) d' hd'

theorem pull_conflict_entry (src : Globals) (hnd : (src.map Prod.fst).Nodup)
    (dst : Globals) (p : String × Global) (hp : p ∈ src) (d : Global)
    (hld : lookupA dst p.1 = some d)
    (hc : has_conflict p.2.history d.history = true) :
    (pull dst src).1 = false ∧ lookupA (pull dst src).2 p.1 = some d := by
  induction src generalizing dst with
  | nil => simp at hp
  | cons q rest ih =>
    obtain ⟨w, g⟩ := q
    simp only [List.map_cons, List.nodup_cons] at hnd
    have hw : w ∉ rest.map Prod.fst := hnd.1
    rcases List.mem_cons.mp hp with hph | hpr
    · subst hph
      simp only at hld hc
      rw [pull_cons, hld]
      dsimp only
      rw [if_pos hc]
      exact ⟨rfl, hld⟩
    · have hpw : p.1 ≠ w := by
        intro h
        exact hw (h ▸ List.mem_map.mpr ⟨p, hpr, rfl⟩)
      rw [pull_cons]
      cases hld' : lookupA dst w with
      | some d₀ =>
        dsimp only
        by_cases hc₀ : has_conflict g.history d₀.history = true
        · rw [if_pos hc₀]
          exact ⟨rfl, hld⟩
        · rw [if_neg hc₀]
          by_cases hff : d₀.history.length < g.history.length
          · rw [if_pos hff]
            exact ih hnd.2 _ hpr
              (by rw [lookupA_setA_ne dst w p.1 _ hpw]; exact hld)
          · rw [if_neg hff]
            exact ih hnd.2 dst hpr hld
      | none =>
        dsimp only
        exact ih hnd.2 _ hpr (by rw [lookupA_setA_ne dst w p.1 _ hpw]; exact hld)

theorem pull_success_entry (src : Globals) (hnd : (src.map Prod.fst).Nodup)
    (dst : Globals) (hsucc : (pull dst src).1 = true) :
    ∀ p ∈ src, lookupA (pull dst src).2 p.1 =
      match lookupA dst p.1 with
      | none => some ⟨p.2.val, none, p.2.history⟩
      | some d =>
        if d.history.length < p.2.history.length then
          some { d with val := p.2.val, history := p.2.history }
        else some d := by
  induction src generalizing dst with
  | nil => intro p hp; simp at hp
  | cons q rest ih =>
    obtain ⟨w, g⟩ := q
    simp only [List.map_cons, List.nodup_cons] at hnd
    have hw : w ∉ rest.map Prod.fst := hnd.1
    have hrw : lookupA rest w = none := (lookupA_eq_none rest w).mpr hw
    intro p hp
    rw [pull_cons] at hsucc ⊢
    cases hld : lookupA dst w with
    | some d =>
      rw [hld] at hsucc
      dsimp only at hsucc ⊢
      by_cases hc : has_conflict g.history d.history = true
      · rw [if_pos hc] at hsucc
        exact absurd hsucc (by simp)
      · rw [if_neg hc] at hsucc ⊢
        by_cases hff : d.history.length < g.history.length
        · rw [if_pos hff] at hsucc ⊢
          rcases List.mem_cons.mp hp with hph | hpr
          · subst hph
            dsimp only
            rw [pull_lookup_of_not_mem_src rest _ w hrw, lookupA_setA_self, hld]
            dsimp only
            rw [if_pos hff]
          · have hpw : p.1 ≠ w := by
              intro h
              exact hw (h ▸ List.mem_map.mpr ⟨p, hpr, rfl⟩)
            rw [ih hnd.2 _ hsucc p hpr, lookupA_setA_ne dst w p.1 _ hpw]
        · rw [if_neg hff] at hsucc ⊢
          rcases List.mem_cons.mp hp with hph | hpr
          · subst hph
            dsimp only
            rw [pull_lookup_of_not_mem_src rest dst w hrw, hld]
            dsimp only
            rw [if_neg hff]
          · exact ih hnd.2 dst hsucc p hpr
    | none =>
      rw [hld] at hsucc
      dsimp only at hsucc ⊢
      rcases List.mem_cons.mp hp with hph | hpr
      · subst hph
        dsimp only
        rw [pull_lookup_of_not_mem_src rest _ w hrw, lookupA_setA_self, hld]
      · have hpw : p.1 ≠ w := by
          intro h
          exact hw (h ▸ List.mem_map.mpr ⟨p, hpr, rfl⟩)
        rw [ih hnd.2 _ hsucc p hpr, lookupA_setA_ne dst w p.1 _ hpw]

/-- C1: per-variable behaviour of `pull(dst, src)`.  Variables absent from
`src` (in particular, variables present only in `dst`) are never modified; the
pull succeeds iff no variable of `src` has a history conflicting with `dst`'s;
a variable whose histories conflict makes the whole pull fail and its `dst`
entry is left unchanged; and on success each `src` variable is copied into
`dst` when absent, fast-forwarded (value and history adopted, pending commit
kept) when `src`'s history is strictly longer, and left unchanged
otherwise. -/
theorem pull_spec (dst src : Globals) (hnd : (src.map Prod.fst).Nodup) :
    (∀ v, lookupA src v = none → lookupA (pull dst src).2 v = lookupA dst v) ∧
    ((pull dst src).1 = true ↔
      ∀ p ∈ src, ∀ d, lookupA dst p.1 = some d →
        has_conflict p.2.history d.history = false) ∧
    (∀ p ∈ src, ∀ d, lookupA dst p.1 = some d →
      has_conflict p.2.history d.history = true →
      (pull dst src).1 = false ∧ lookupA (pull dst src).2 p.1 = some d) ∧
    ((pull dst src).1 = true → ∀ p ∈ src,
      lookupA (pull dst src).2 p.1 =
        match lookupA dst p.1 with
        | none => some ⟨p.2.val, none, p.2.history⟩
        | some d =>
          if d.history.length < p.2.history.length then
            some { d with val := p.2.val, history := p.2.history }
          else some d) :=
  ⟨fun v hv => pull_lookup_of_not_mem_src src dst v hv,
   pull_fst_true_iff src hnd dst,
   fun p hp d hld hc => pull_conflict_entry src hnd dst p hp d hld hc,
   fun hsucc => pull_success_entry src hnd dst hsucc⟩

/-- C1 witness: `pull_spec` instantiated on a concrete conflict-free pair of
views exercising the copy, fast-forward and leave-alone cases. -/
theorem pull_spec_witness :
    (∀ v, lookupA exampleSrc v = none →
      lookupA (pull exampleDst exampleSrc).2 v = lookupA exampleDst v) ∧
    ((pull exampleDst exampleSrc).1 = true ↔
      ∀ p ∈ exampleSrc, ∀ d, lookupA exampleDst p.1 = some d →
        has_conflict p.2.history d.history = false) ∧
    (∀ p ∈ exampleSrc, ∀ d, lookupA exampleDst p.1 = some d →
      has_conflict p.2.history d.history = true →
      (pull exampleDst exampleSrc).1 = false ∧
        lookupA (pull exampleDst exampleSrc).2 p.1 = some d) ∧
    ((pull exampleDst exampleSrc).1 = true → ∀ p ∈ exampleSrc,
      lookupA (pull exampleDst exampleSrc).2 p.1 =
        match lookupA exampleDst p.1 with
        | none => some ⟨p.2.val, none, p.2.history⟩
        | some d =>
          if d.history.length < p.2.history.length then
            some { d with val := p.2.val, history := p.2.history }
          else some d) :=
  pull_spec exampleDst exampleSrc (by decide)

/-- C9 counterexample: with a conflicting variable "x" and a fast-forwardable
variable "y", iterating `src` in the two possible orders yields different
final contents of `dst` (the failing pull leaves "y" untouched in one order
and fast-forwards it in the other), refuting order-independence of the final
contents as stated. -/
theorem pull_order_counterexample :
    raceSrcB.Perm raceSrcA ∧
    (pull raceDst raceSrcA).1 = false ∧
    (pull raceDst raceSrcB).1 = false ∧
    lookupA (pull raceDst raceSrcA).2 "y" ≠ lookupA (pull raceDst raceSrcB).2 "y" := by
  refine ⟨by decide, by decide, by decide, by decide⟩

/-- C9 (amended): the success flag of `pull(dst, src)` does not depend on the
iteration order of `src`, and when the pull succeeds the final contents of
`dst` are pointwise independent of the order; on a failing pull only the
failure itself is order-independent, the partial contents of `dst` may
differ. -/
theorem pull_perm_spec (dst src src' : Globals)
    (hnd : (src.map Prod.fst).Nodup) (hperm : src'.Perm src) :
    (pull dst src').1 = (pull dst src).1 ∧
    ((pull dst src).1 = true →
      ∀ v, lookupA (pull dst src').2 v = lookupA (pull dst src).2 v) := by
  have hnd' : (src'.map Prod.fst).Nodup := ((hperm.map Prod.fst).nodup_iff).mpr hnd
  have hiff : (pull dst src').1 = true ↔ (pull dst src).1 = true := by
    rw [pull_fst_true_iff src hnd dst, pull_fst_true_iff src' hnd' dst]
    constructor
    · intro h p hp d hld
      exact h p (hperm.mem_iff.mpr hp) d hld
    · intro h p hp d hld
      exact h p (hperm.mem_iff.mp hp) d hld
  constructor
  · cases h1 : (pull dst src').1 <;> cases h2 : (pull dst src).1 <;> simp_all
  · intro hsucc v
    have hsucc' : (pull dst src').1 = true := hiff.mpr hsucc
    cases hsv : lookupA src v with
    | none =>
      have hsv' : lookupA src' v = none := by
        rw [lookupA_eq_none] at hsv ⊢
        intro hv
        exact hsv ((hperm.map Prod.fst).mem_iff.mp hv)
      rw [pull_lookup_of_not_mem_src src dst v hsv,
        pull_lookup_of_not_mem_src src' dst v hsv']
    | some g =>
      have hmem : (v, g) ∈ src := lookupA_mem hsv
      have hmem' : (v, g) ∈ src' := hperm.mem_iff.mpr hmem
      have e1 := pull_success_entry src hnd dst hsucc (v, g) hmem
      have e2 := pull_success_entry src' hnd' dst hsucc' (v, g) hmem'
      simp only at e1 e2
      rw [e1, e2]

/-- C9 witness: `pull_perm_spec` on the concrete conflict-free views, with a
reversed iteration order. -/
theorem pull_perm_spec_witness :
    ((pull exampleDst exampleSrcPerm).1 = (pull exampleDst exampleSrc).1 ∧
      ((pull exampleDst exampleSrc).1 = true →
        ∀ v, lookupA (pull exampleDst exampleSrcPerm).2 v =
          lookupA (pull exampleDst exampleSrc).2 v)) :=
  pull_perm_spec exampleDst exampleSrc exampleSrcPerm (by decide) (by decide)

/-! ### List helper lemmas -/

theorem get?_set_of_ne {α : Type} (l : List α) (n m : Nat) (a : α) (h : n ≠ m) :
    (l.set m a).get? n = l.get? n := by
  induction l generalizing n m with
  | nil => simp
  | cons x xs ih =>
    cases m with
    | zero =>
      cases n with
      | zero => exact absurd rfl h
      | succ n' => simp [List.set]
    | succ m' =>
      cases n with
      | zero => simp [List.set]
      | succ n' => simpa [List.set] using ih n' m' (fun hq => h (by omega))

theorem set_get_self {α : Type} {l : List α} {n : Nat} {a : α}
    (h : l.get? n = some a) : l.set n a = l := by
  induction l generalizing n with
  | nil => simp at h
  | cons x xs ih =>
    cases n with
    | zero =>
      simp only [List.get?] at h
      injection h with h
      simp [List.set, h]
    | succ n' =>
      simp only [List.get?] at h
      simp [List.set, ih h]

theorem get?_append_lt {α : Type} (l l' : List α) (n : Nat) (h : n < l.length) :
    (l ++ l').get? n = l.get? n := by
  induction l generalizing n with
  | nil => simp at h
  | cons x xs ih =>
    cases n with
    | zero => rfl
    | succ n' => simpa using ih n' (by simpa using h)

/-! ### C7: inequality is not evaluated -/

/-- C7: `Neq` reaches `evaluate_expression`'s catch-all "Unknown expression"
branch, which returns 0 without evaluating the subexpressions.  In
particular, `1 != 2` evaluates to 0 (the claim requires 1), and an
inequality whose left operand is an unassigned register returns 0 instead of
short-circuiting with the uninitialised-read termination the claim requires
(the equality operator, by contrast, does short-circuit). -/
theorem neq_not_evaluated :
    evaluate_expression (.neq (.const 1) (.const 2)) emptyGctx emptyTctx =
      (emptyGctx, emptyTctx, .inl 0) ∧
    evaluate_expression (.neq (.reg "$x") (.const 2)) emptyGctx emptyTctx =
      (emptyGctx, emptyTctx, .inl 0) ∧
    evaluate_expression (.eq (.reg "$x") (.const 2)) emptyGctx emptyTctx =
      (emptyGctx, emptyTctx, .inr .unassigned_variable_read_exception) :=
  ⟨rfl, rfl, rfl⟩

/-! ### C5: join on an errored thread -/

/-- C5: when the cached join target names a thread that terminated with any
status other than `completed`, the join performs no pull and no commit, the
joiner's context and the global context are returned unchanged, and the
result is no-progress; consequently a thread parked on such a join makes no
progress at the driver level either (`run_thread_to_sync` returns the state
unchanged with no-progress, which `is_finished` classifies as a stuck —
deadlocked — configuration when no other thread progresses). -/
theorem join_errored_no_progress (gctx : GlobalContext) (ctx : ThreadContext)
    (tid nid target : Nat) (e : Expr) (joined : Thread) (t : TerminationStatus)
    (hcache : lookupA gctx.cache nid = some target)
    (hjoined : gctx.threads.get? target = some joined)
    (hterm : joined.terminated = some t) (herr : t ≠ .completed) :
    run_statement (.join nid e) gctx ctx tid = (gctx, ctx, .inl .no_progress) ∧
    (∀ th, gctx.threads.get? tid = some th → th.terminated = none →
      th.block.2.get? th.pc = some (.join nid e) →
      run_thread_to_sync gctx tid = (gctx, .inl .no_progress)) ∧
    is_finished (.inl .no_progress) = true := by
  have hstmt : run_statement (.join nid e) gctx ctx tid = (gctx, ctx, .inl .no_progress) := by
    have hne : ¬(joined.terminated = some TerminationStatus.completed) := by
      rw [hterm]
      intro hcontr
      exact herr (Option.some.inj hcontr)
    simp only [run_statement, hcache]
    simp only [join_pull, hjoined]
    rw [if_neg hne]
  have hstmt' : ∀ c : ThreadContext,
      run_statement (.join nid e) gctx c tid = (gctx, c, .inl .no_progress) := by
    intro c
    have hne : ¬(joined.terminated = some TerminationStatus.completed) := by
      rw [hterm]
      intro hcontr
      exact herr (Option.some.inj hcontr)
    simp only [run_statement, hcache]
    simp only [join_pull, hjoined]
    rw [if_neg hne]
  refine ⟨hstmt, ?_, rfl⟩
  intro th hth hterm' hpc
  obtain ⟨hlt, hget⟩ := List.get?_eq_some.mp hpc
  have hwb : write_back gctx tid th.ctx th.pc none = gctx := by
    have hthe : ({ th with ctx := th.ctx, pc := th.pc, terminated := none } : Thread) = th := by
      cases th with
      | mk c b p term =>
        simp only at hterm'
        simp [hterm']
    simp only [write_back, hth, hthe, set_get_self hth]
  simp only [run_thread_to_sync, hth, hterm']
  rw [run_thread_loop, dif_pos hlt]
  simp only [hget, Bool.not_true, Bool.false_and, Bool.false_eq_true, if_false, hstmt' th.ctx]
  simp only [if_pos, hwb]

/-- C5 witness: in `joinErrGctx` thread 0's join on the datarace-terminated
thread 1 leaves everything unchanged and reports no progress, at both the
statement and the driver level. -/
theorem join_errored_no_progress_witness :
    run_statement (.join 5 (.const 1)) joinErrGctx emptyTctx 0 =
      (joinErrGctx, emptyTctx, .inl .no_progress) ∧
    run_thread_to_sync joinErrGctx 0 = (joinErrGctx, .inl .no_progress) ∧
    is_finished (.inl .no_progress) = true := by
  have h := join_errored_no_progress joinErrGctx emptyTctx 0 5 1 (.const 1)
    ⟨emptyTctx, (1, [.nop]), 0, some .datarace_exception⟩ .datarace_exception
    rfl rfl rfl (by decide)
  exact ⟨h.1, h.2.1 ⟨emptyTctx, (0, [.join 5 (.const 1)]), 0, none⟩ rfl rfl rfl, h.2.2⟩

/-! ### C10: a datarace during lock acquisition leaves the lock poisoned -/

theorem get?_set_self {α : Type} (l : List α) (n : Nat) (a : α) (h : n < l.length) :
    (l.set n a).get? n = some a := by
  induction l generalizing n with
  | nil => simp at h
  | cons x xs ih =>
    cases n with
    | zero => rfl
    | succ n' => simpa [List.set] using ih n' (by simpa using h)

theorem lockStuck_of_extend {g g' : GlobalContext} (v : String) (tid : Nat)
    (hlocks : g'.locks = g.locks) (hthreads : ∃ new, g'.threads = g.threads ++ new)
    (h : lockStuck g v tid) : lockStuck g' v tid := by
  obtain ⟨⟨lk, hlk, hown⟩, th, hth, hterm⟩ := h
  obtain ⟨new, hnew⟩ := hthreads
  obtain ⟨hlt, -⟩ := List.get?_eq_some.mp hth
  refine ⟨⟨lk, by rw [hlocks]; exact hlk, hown⟩, th, ?_, hterm⟩
  rw [hnew, get?_append_lt _ _ _ hlt]
  exact hth

theorem evaluate_expression_effects (e : Expr) (gctx : GlobalContext)
    (ctx : ThreadContext) :
    (evaluate_expression e gctx ctx).1.locks = gctx.locks ∧
    ∃ new, (evaluate_expression e gctx ctx).1.threads = gctx.threads ++ new := by
  induction e, gctx, ctx using evaluate_expression.induct with
  | case1 name gctx ctx v hl =>
    refine ⟨?_, [], ?_⟩ <;> simp [evaluate_expression, hl]
  | case2 name gctx ctx hl =>
    refine ⟨?_, [], ?_⟩ <;> simp [evaluate_expression, hl]
  | case3 name gctx ctx g hl =>
    refine ⟨?_, [], ?_⟩ <;> simp [evaluate_expression, hl]
  | case4 name gctx ctx hl =>
    refine ⟨?_, [], ?_⟩ <;> simp [evaluate_expression, hl]
  | case5 n gctx ctx =>
    refine ⟨?_, [], ?_⟩ <;> simp [evaluate_expression]
  | case6 bid body gctx ctx =>
    exact ⟨rfl, [⟨⟨[], commit ctx.globals⟩, (bid, body), 0, none⟩], rfl⟩
  | case7 l r gctx ctx g1 c1 t hev ihl =>
    simp only [evaluate_expression, hev] at ihl ⊢
    exact ihl
  | case8 l r gctx ctx g1 c1 vl hev g2 c2 t hev2 ihl ihr =>
    simp only [evaluate_expression, hev, hev2] at ihl ihr ⊢
    obtain ⟨hlo1, new1, hth1⟩ := ihl
    obtain ⟨hlo2, new2, hth2⟩ := ihr
    exact ⟨by rw [hlo2, hlo1], new1 ++ new2, by rw [hth2, hth1, List.append_assoc]⟩
  | case9 l r gctx ctx g1 c1 vl hev g2 c2 vr hev2 ihl ihr =>
    simp only [evaluate_expression, hev, hev2] at ihl ihr ⊢
    obtain ⟨hlo1, new1, hth1⟩ := ihl
    obtain ⟨hlo2, new2, hth2⟩ := ihr
    exact ⟨by rw [hlo2, hlo1], new1 ++ new2, by rw [hth2, hth1, List.append_assoc]⟩
  | case10 l r gctx ctx =>
    refine ⟨?_, [], ?_⟩ <;> simp [evaluate_expression]

theorem join_pull_stuck (gctx : GlobalContext) (ctx : ThreadContext) (result : Nat)
    {v : String} {tid : Nat} (h : lockStuck gctx v tid) :
    lockStuck (join_pull gctx ctx result).1 v tid := by
  obtain ⟨hA, th, hth, hterm⟩ := h
  obtain ⟨hlt, -⟩ := List.get?_eq_some.mp hth
  cases hr : gctx.threads.get? result with
  | none =>
    simp only [join_pull, hr]
    exact ⟨hA, th, hth, hterm⟩
  | some thread =>
    simp only [join_pull, hr]
    by_cases hc : thread.terminated = some TerminationStatus.completed
    · rw [if_pos hc]
      have hB : ∃ th', (gctx.threads.set result
          { thread with ctx := { thread.ctx with globals := commit thread.ctx.globals } }).get? tid =
            some th' ∧ th'.terminated.isSome := by
        by_cases he : result = tid
        · subst he
          rw [hr] at hth
          injection hth with hth
          subst hth
          refine ⟨_, get?_set_self _ _ _ (by simpa using hlt), ?_⟩
          simpa using hterm
        · exact ⟨th, by rw [get?_set_of_ne _ _ _ _ (fun q => he q.symm)]; exact hth, hterm⟩
      split
      · exact ⟨hA, hB⟩
      · exact ⟨hA, hB⟩
    · rw [if_neg hc]
      exact ⟨hA, th, hth, hterm⟩

theorem run_statement_stuck (stmt : Stmt) (gctx : GlobalContext) (ctx : ThreadContext)
    {v : String} {tid : Nat} (tid' : Nat) (hne : tid' ≠ tid)
    (h : lockStuck gctx v tid) : lockStuck (run_statement stmt gctx ctx tid').1 v tid := by
  cases stmt with
  | nop => exact h
  | assignReg name e =>
    obtain ⟨hlocks, hthreads⟩ := evaluate_expression_effects e gctx ctx
    rcases hev : evaluate_expression e gctx ctx with ⟨g', c', r⟩
    rw [hev] at hlocks hthreads
    have h' : lockStuck g' v tid := lockStuck_of_extend v tid hlocks hthreads h
    cases r with
    | inl val => simpa [run_statement, hev] using h'
    | inr t => simpa [run_statement, hev] using h'
  | assignVar name e =>
    obtain ⟨hlocks, hthreads⟩ := evaluate_expression_effects e gctx ctx
    rcases hev : evaluate_expression e gctx ctx with ⟨g', c', r⟩
    rw [hev] at hlocks hthreads
    have h' : lockStuck g' v tid := lockStuck_of_extend v tid hlocks hthreads h
    cases r with
    | inl val =>
      simp only [run_statement, hev]
      exact lockStuck_of_extend v tid rfl ⟨[], by simp⟩ h'
    | inr t => simpa [run_statement, hev] using h'
  | join nid e =>
    cases hc : lookupA gctx.cache nid with
    | some result =>
      simp only [run_statement, hc]
      exact join_pull_stuck gctx ctx result h
    | none =>
      obtain ⟨hlocks, hthreads⟩ := evaluate_expression_effects e gctx ctx
      rcases hev : evaluate_expression e gctx ctx with ⟨g', c', r⟩
      rw [hev] at hlocks hthreads
      have h' : lockStuck g' v tid := lockStuck_of_extend v tid hlocks hthreads h
      cases r with
      | inl val =>
        simp only [run_statement, hc, hev]
        exact join_pull_stuck _ _ _ (lockStuck_of_extend v tid rfl ⟨[], by simp⟩ h')
      | inr t => simpa [run_statement, hc, hev] using h'
  | lock w =>
    obtain ⟨⟨lk, hlk, hown⟩, hB⟩ := h
    cases hlw : lookupA gctx.locks w with
    | some l₀ =>
      cases how : l₀.owner with
      | some o =>
        simp only [run_statement, hlw, Option.getD, how]
        exact ⟨⟨lk, hlk, hown⟩, hB⟩
      | none =>
        have hvw : v ≠ w := by
          intro hq
          subst hq
          rw [hlw] at hlk
          injection hlk with hlk
          subst hlk
          rw [how] at hown
          cases hown
        simp only [run_statement, hlw, Option.getD, how]
        split
        · exact ⟨⟨lk, by rw [lookupA_setA_ne _ _ _ _ hvw]; exact hlk, hown⟩, hB⟩
        · exact ⟨⟨lk, by rw [lookupA_setA_ne _ _ _ _ hvw]; exact hlk, hown⟩, hB⟩
    | none =>
      have hvw : v ≠ w := by
        intro hq
        subst hq
        rw [hlw] at hlk
        cases hlk
      simp only [run_statement, hlw, Option.getD]
      split
      · exact ⟨⟨lk, by
          rw [lookupA_setA_ne _ _ _ _ hvw, lookupA_setA_ne _ _ _ _ hvw]; exact hlk, hown⟩, hB⟩
      · exact ⟨⟨lk, by
          rw [lookupA_setA_ne _ _ _ _ hvw, lookupA_setA_ne _ _ _ _ hvw]; exact hlk, hown⟩, hB⟩
  | unlock w =>
    obtain ⟨⟨lk, hlk, hown⟩, hB⟩ := h
    cases hlw : lookupA gctx.locks w with
    | some l₀ =>
      by_cases howt : l₀.owner = some tid'
      · have hvw : v ≠ w := by
          intro hq
          subst hq
          rw [hlw] at hlk
          injection hlk with hlk
          subst hlk
          rw [howt] at hown
          injection hown with hown
          exact hne hown
        simp only [run_statement, hlw, Option.getD]
        rw [if_pos howt]
        exact ⟨⟨lk, by rw [lookupA_setA_ne _ _ _ _ hvw]; exact hlk, hown⟩, hB⟩
      · simp only [run_statement, hlw, Option.getD]
        rw [if_neg howt]
        exact ⟨⟨lk, hlk, hown⟩, hB⟩
    | none =>
      have hvw : v ≠ w := by
        intro hq
        subst hq
        rw [hlw] at hlk
        cases hlk
      simp only [run_statement, hlw, Option.getD]
      have : ¬((⟨[], none⟩ : Lock).owner = some tid') := by simp
      rw [if_neg this]
      exact ⟨⟨lk, by rw [lookupA_setA_ne _ _ _ _ hvw]; exact hlk, hown⟩, hB⟩
  | assert e =>
    obtain ⟨hlocks, hthreads⟩ := evaluate_expression_effects e gctx ctx
    rcases hev : evaluate_expression e gctx ctx with ⟨g', c', r⟩
    rw [hev] at hlocks hthreads
    have h' : lockStuck g' v tid := lockStuck_of_extend v tid hlocks hthreads h
    cases r with
    | inl val =>
      by_cases hz : val ≠ 0
      · simpa [run_statement, hev, hz] using h'
      · simpa [run_statement, hev, hz] using h'
    | inr t => simpa [run_statement, hev] using h'

theorem write_back_stuck (gctx : GlobalContext) (tid' : Nat) (ctx : ThreadContext)
    (pc : Nat) (term : Option TerminationStatus) {v : String} {tid : Nat}
    (hne : tid' ≠ tid) (h : lockStuck gctx v tid) :
    lockStuck (write_back gctx tid' ctx pc term) v tid := by
  obtain ⟨hA, th, hth, hterm⟩ := h
  unfold write_back
  cases hg : gctx.threads.get? tid' with
  | none => exact ⟨hA, th, hth, hterm⟩
  | some t =>
    refine ⟨hA, th, ?_, hterm⟩
    rw [get?_set_of_ne _ _ _ _ (fun q => hne q.symm)]
    exact hth

theorem run_thread_loop_stuck (tid' : Nat) (block : List Stmt) {v : String} {tid : Nat}
    (hne : tid' ≠ tid) (gctx : GlobalContext) (ctx : ThreadContext) (pc : Nat)
    (first : Bool) :
    lockStuck gctx v tid → lockStuck (run_thread_loop tid' block gctx ctx pc first).1 v tid := by
  refine run_thread_loop.induct tid' block
    (fun g c p f =>
      lockStuck g v tid → lockStuck (run_thread_loop tid' block g c p f).1 v tid)
    ?_ ?_ ?_ ?_ ?_ gctx ctx pc first
  · intro gctx' ctx' pc' first' hlt stmt hsync h
    rw [run_thread_loop, dif_pos hlt]
    simp only [hsync, if_true]
    exact write_back_stuck _ _ _ _ _ hne h
  · intro gctx' ctx' pc' first' hlt stmt hsync g' c' t hrun h
    have h' := run_statement_stuck stmt gctx' ctx' tid' hne h
    rw [hrun] at h'
    rw [run_thread_loop, dif_pos hlt]
    simp only [if_neg hsync, hrun]
    exact write_back_stuck _ _ _ _ _ hne h'
  · intro gctx' ctx' pc' first' hlt stmt hsync g' c' hrun h
    have h' := run_statement_stuck stmt gctx' ctx' tid' hne h
    rw [hrun] at h'
    rw [run_thread_loop, dif_pos hlt]
    simp only [if_neg hsync, hrun]
    exact write_back_stuck _ _ _ _ _ hne h'
  · intro gctx' ctx' pc' first' hlt stmt hsync g' c' hrun ih h
    have h' := run_statement_stuck stmt gctx' ctx' tid' hne h
    rw [hrun] at h'
    rw [run_thread_loop, dif_pos hlt]
    simp only [if_neg hsync, hrun]
    exact ih h'
  · intro gctx' ctx' pc' first' hlt h
    rw [run_thread_loop, dif_neg hlt]
    exact write_back_stuck _ _ _ _ _ hne h

theorem run_thread_to_sync_stuck (gctx : GlobalContext) (tid' : Nat)
    {v : String} {tid : Nat} (h : lockStuck gctx v tid) :
    lockStuck (run_thread_to_sync gctx tid').1 v tid := by
  by_cases he : tid' = tid
  · subst he
    obtain ⟨hA, th, hth, hterm⟩ := h
    obtain ⟨t, ht⟩ := Option.isSome_iff_exists.mp hterm
    simp only [run_thread_to_sync, hth, ht]
    exact ⟨hA, th, hth, hterm⟩
  · cases hg : gctx.threads.get? tid' with
    | none => simpa only [run_thread_to_sync, hg] using h
    | some thread =>
      cases hterm' : thread.terminated with
      | some t => simpa only [run_thread_to_sync, hg, hterm'] using h
      | none =>
        simp only [run_thread_to_sync, hg, hterm']
        exact run_thread_loop_stuck tid' thread.block.2 he gctx thread.ctx thread.pc true h

theorem runSchedule_stuck {v : String} {tid : Nat} (sched : List Nat) :
    ∀ gctx : GlobalContext, lockStuck gctx v tid → lockStuck (runSchedule gctx sched) v tid := by
  induction sched with
  | nil => intro gctx h; exact h
  | cons s ss ih =>
    intro gctx h
    exact ih _ (run_thread_to_sync_stuck gctx s h)

theorem lock_conflict_run_statement (gctx : GlobalContext) (ctx : ThreadContext)
    (tid : Nat) (v : String) (lk : Lock)
    (hlk : lookupA gctx.locks v = some lk) (hown : lk.owner = none)
    (hfail : (pull (commit ctx.globals) lk.globals).1 = false) :
    run_statement (.lock v) gctx ctx tid =
      ({ gctx with locks := setA gctx.locks v { lk with owner := some tid } },
       { ctx with globals := (pull (commit ctx.globals) lk.globals).2 },
       .inr .datarace_exception) := by
  simp only [run_statement, hlk, Option.getD, hown]
  rcases hres : pull (commit ctx.globals) lk.globals with ⟨ok, g2⟩
  rw [hres] at hfail
  simp only at hfail
  subst hfail
  simp only [Bool.false_eq_true, if_false]

/-- C10: if a thread acquires an unowned lock and the subsequent pull
conflicts, the thread keeps the ownership it just took and terminates with a
datarace: (i) `run_statement` returns the datarace with the owner field set
to the locking thread; (ii) at the driver level the thread is marked
terminated while still owning the lock, establishing `lockStuck`; (iii)
`lockStuck` is preserved by every subsequent scheduling step (the owner is
never cleared, because only the owner could unlock it and that thread never
runs again); and (iv) under `lockStuck` every later `lock v` by any thread
returns no-progress with the state unchanged. -/
theorem lock_datarace_poisons (gctx : GlobalContext) (ctx : ThreadContext)
    (tid : Nat) (v : String) (lk : Lock) :
    (lookupA gctx.locks v = some lk → lk.owner = none →
      (pull (commit ctx.globals) lk.globals).1 = false →
      run_statement (.lock v) gctx ctx tid =
        ({ gctx with locks := setA gctx.locks v { lk with owner := some tid } },
         { ctx with globals := (pull (commit ctx.globals) lk.globals).2 },
         .inr .datarace_exception)) ∧
    (∀ th, lookupA gctx.locks v = some lk → lk.owner = none →
      gctx.threads.get? tid = some th → th.terminated = none →
      th.block.2.get? th.pc = some (.lock v) →
      (pull (commit th.ctx.globals) lk.globals).1 = false →
      (run_thread_to_sync gctx tid).2 = .inr .datarace_exception ∧
      lockStuck (run_thread_to_sync gctx tid).1 v tid) ∧
    (∀ sched, lockStuck gctx v tid → lockStuck (runSchedule gctx sched) v tid) ∧
    (∀ tid'' ctx'', lockStuck gctx v tid →
      run_statement (.lock v) gctx ctx'' tid'' = (gctx, ctx'', .inl .no_progress)) := by
  refine ⟨lock_conflict_run_statement gctx ctx tid v lk, ?_, ?_, ?_⟩
  · intro th hlk hown hth hterm hpc hfail
    obtain ⟨hlt, hget⟩ := List.get?_eq_some.mp hpc
    obtain ⟨htlt, -⟩ := List.get?_eq_some.mp hth
    have hrun := lock_conflict_run_statement gctx th.ctx tid v lk hlk hown hfail
    have hloop : run_thread_to_sync gctx tid =
        (write_back { gctx with locks := setA gctx.locks v { lk with owner := some tid } }
          tid { th.ctx with globals := (pull (commit th.ctx.globals) lk.globals).2 }
          th.pc (some .datarace_exception),
         .inr .datarace_exception) := by
      simp only [run_thread_to_sync, hth, hterm]
      rw [run_thread_loop, dif_pos hlt]
      simp only [hget, Bool.not_true, Bool.false_and, Bool.false_eq_true, if_false, hrun]
    rw [hloop]
    refine ⟨rfl, ?_⟩
    unfold write_back
    cases hg : ({ gctx with locks := setA gctx.locks v { lk with owner := some tid } }
        : GlobalContext).threads.get? tid with
    | none =>
      simp only at hg
      rw [hth] at hg
      cases hg
    | some t' =>
      refine ⟨⟨{ lk with owner := some tid }, ?_, rfl⟩, ?_⟩
      · exact lookupA_setA_self _ _ _
      · refine ⟨_, get?_set_self _ _ _ (by simpa using htlt), ?_⟩
        simp
  · intro sched h
    exact runSchedule_stuck sched gctx h
  · intro tid'' ctx'' h
    obtain ⟨⟨lk', hlk', hown'⟩, -⟩ := h
    simp only [run_statement, hlk', Option.getD, hown']

/-- C10 witness: in `lockRaceGctx`, thread 0's `lock m` hits a history
conflict on "x": the statement returns a datarace with the owner set to
thread 0; the driver leaves `lockStuck`; `lockStuck` survives the schedule
`[1, 0, 1]`; and thread 1's `lock m` in the stuck state returns
no-progress. -/
theorem lock_datarace_poisons_witness :
    run_statement (.lock "m") lockRaceGctx ⟨[], [("x", ⟨5, none, [0]⟩)]⟩ 0 =
      ((⟨lockRaceGctx.threads,
         setA lockRaceGctx.locks "m" ⟨[("x", ⟨9, none, [1]⟩)], some 0⟩,
         lockRaceGctx.cache, lockRaceGctx.uuid⟩ : GlobalContext),
       (⟨[], (pull (commit [("x", ⟨5, none, [0]⟩)]) [("x", ⟨9, none, [1]⟩)]).2⟩ : ThreadContext),
       .inr .datarace_exception) ∧
    (run_thread_to_sync lockRaceGctx 0).2 = .inr .datarace_exception ∧
    lockStuck (run_thread_to_sync lockRaceGctx 0).1 "m" 0 ∧
    lockStuck (runSchedule lockStuckGctx [1, 0, 1]) "m" 0 ∧
    run_statement (.lock "m") lockStuckGctx emptyTctx 1 =
      (lockStuckGctx, emptyTctx, .inl .no_progress) := by
  have hstuck : lockStuck lockStuckGctx "m" 0 :=
    ⟨⟨_, rfl, rfl⟩, ⟨_, rfl, rfl⟩⟩
  have h1 := (lock_datarace_poisons lockRaceGctx ⟨[], [("x", ⟨5, none, [0]⟩)]⟩ 0 "m"
    ⟨[("x", ⟨9, none, [1]⟩)], none⟩).1 rfl rfl (by decide)
  have h2 := (lock_datarace_poisons lockRaceGctx ⟨[], [("x", ⟨5, none, [0]⟩)]⟩ 0 "m"
    ⟨[("x", ⟨9, none, [1]⟩)], none⟩).2.1
    ⟨⟨[], [("x", ⟨5, none, [0]⟩)]⟩, (0, [.lock "m"]), 0, none⟩
    rfl rfl rfl rfl rfl (by decide)
  have h3 := (lock_datarace_poisons lockStuckGctx emptyTctx 0 "m"
    ⟨[("x", ⟨9, none, [1]⟩)], some 0⟩).2.2.1 [1, 0, 1] hstuck
  have h4 := (lock_datarace_poisons lockStuckGctx emptyTctx 0 "m"
    ⟨[("x", ⟨9, none, [1]⟩)], some 0⟩).2.2.2 1 emptyTctx hstuck
  exact ⟨h1, h2.1, h2.2, h3, h4⟩

/-! ### C3: the thread driver runs statements one at a time up to a sync -/

theorem run_thread_loop_spec (tid : Nat) (block : List Stmt) :
    ∀ (gctx : GlobalContext) (ctx : ThreadContext) (pc : Nat) (first : Bool),
    ∃ k gctx' ctx',
      execProg tid block k (gctx, ctx, pc) = some (gctx', ctx', pc + k) ∧
      (∀ j, j < k → (j ≠ 0 ∨ first = false) →
        ∀ s, block.get? (pc + j) = some s → is_syncing s = false) ∧
      ((∃ stmt, block.get? (pc + k) = some stmt ∧ is_syncing stmt = true ∧
          (k ≠ 0 ∨ first = false) ∧
          run_thread_loop tid block gctx ctx pc first =
            (write_back gctx' tid ctx' (pc + k) none, .inl .progress)) ∨
       (∃ stmt g'' c'', block.get? (pc + k) = some stmt ∧
          run_statement stmt gctx' ctx' tid = (g'', c'', .inl .no_progress) ∧
          run_thread_loop tid block gctx ctx pc first =
            (write_back g'' tid c'' (pc + k) none,
             .inl (if k = 0 ∧ first = true then ProgressStatus.no_progress
                   else ProgressStatus.progress))) ∨
       (∃ stmt g'' c'' t, block.get? (pc + k) = some stmt ∧
          run_statement stmt gctx' ctx' tid = (g'', c'', .inr t) ∧
          run_thread_loop tid block gctx ctx pc first =
            (write_back g'' tid c'' (pc + k) (some t), .inr t)) ∨
       (block.length ≤ pc + k ∧
          run_thread_loop tid block gctx ctx pc first =
            (write_back gctx' tid ctx' (pc + k) (some .completed), .inr .completed))) := by
  refine run_thread_loop.induct tid block
    (fun g c p f =>
      ∃ k gctx' ctx',
        execProg tid block k (g, c, p) = some (gctx', ctx', p + k) ∧
        (∀ j, j < k → (j ≠ 0 ∨ f = false) →
          ∀ s, block.get? (p + j) = some s → is_syncing s = false) ∧
        ((∃ stmt, block.get? (p + k) = some stmt ∧ is_syncing stmt = true ∧
            (k ≠ 0 ∨ f = false) ∧
            run_thread_loop tid block g c p f =
              (write_back gctx' tid ctx' (p + k) none, .inl .progress)) ∨
         (∃ stmt g'' c'', block.get? (p + k) = some stmt ∧
            run_statement stmt gctx' ctx' tid = (g'', c'', .inl .no_progress) ∧
            run_thread_loop tid block g c p f =
              (write_back g'' tid c'' (p + k) none,
               .inl (if k = 0 ∧ f = true then ProgressStatus.no_progress
                     else ProgressStatus.progress))) ∨
         (∃ stmt g'' c'' t, block.get? (p + k) = some stmt ∧
            run_statement stmt gctx' ctx' tid = (g'', c'', .inr t) ∧
            run_thread_loop tid block g c p f =
              (write_back g'' tid c'' (p + k) (some t), .inr t)) ∨
         (block.length ≤ p + k ∧
            run_thread_loop tid block g c p f =
              (write_back gctx' tid ctx' (p + k) (some .completed), .inr .completed))))
    ?_ ?_ ?_ ?_ ?_
  · -- sync stop without executing
    intro gctx ctx pc first hlt stmt hsync
    have hgg : block.get? (pc + 0) = some (block.get ⟨pc, hlt⟩) := by
      rw [Nat.add_zero]
      exact List.get?_eq_some.mpr ⟨hlt, rfl⟩
    refine ⟨0, gctx, ctx, rfl, fun j hj => absurd hj (Nat.not_lt_zero j),
      Or.inl ⟨block.get ⟨pc, hlt⟩, hgg, ?_, ?_, ?_⟩⟩
    · exact ((Bool.and_eq_true _ _).mp hsync).2
    · right
      have hf : (!first) = true := ((Bool.and_eq_true _ _).mp hsync).1
      simpa using hf
    · rw [run_thread_loop, dif_pos hlt]
      simp only [hsync, if_true, Nat.add_zero]
  · -- termination propagated
    intro gctx ctx pc first hlt stmt hsync g' c' t hrun
    have hgg : block.get? (pc + 0) = some (block.get ⟨pc, hlt⟩) := by
      rw [Nat.add_zero]
      exact List.get?_eq_some.mpr ⟨hlt, rfl⟩
    have hrun' : run_statement (block.get ⟨pc, hlt⟩) gctx ctx tid =
        (g', c', .inr t) := hrun
    refine ⟨0, gctx, ctx, rfl, fun j hj => absurd hj (Nat.not_lt_zero j),
      Or.inr (Or.inr (Or.inl ⟨block.get ⟨pc, hlt⟩, g', c', t, hgg, hrun', ?_⟩))⟩
    rw [run_thread_loop, dif_pos hlt]
    simp only [if_neg hsync, hrun, Nat.add_zero]
  · -- blocking statement: no-progress
    intro gctx ctx pc first hlt stmt hsync g' c' hrun
    have hgg : block.get? (pc + 0) = some (block.get ⟨pc, hlt⟩) := by
      rw [Nat.add_zero]
      exact List.get?_eq_some.mpr ⟨hlt, rfl⟩
    have hrun' : run_statement (block.get ⟨pc, hlt⟩) gctx ctx tid =
        (g', c', .inl .no_progress) := hrun
    refine ⟨0, gctx, ctx, rfl, fun j hj => absurd hj (Nat.not_lt_zero j),
      Or.inr (Or.inl ⟨block.get ⟨pc, hlt⟩, g', c', hgg, hrun', ?_⟩)⟩
    rw [run_thread_loop, dif_pos hlt]
    simp only [if_neg hsync, hrun, Nat.add_zero, true_and]
  · -- progress: advance and continue
    intro gctx ctx pc first hlt stmt hsync g' c' hrun ih
    obtain ⟨k, gctx', ctx', hexec, hnosyncIH, hcase⟩ := ih
    have hrun' : run_statement (block.get ⟨pc, hlt⟩) gctx ctx tid =
        (g', c', .inl .progress) := hrun
    have hloopeq : run_thread_loop tid block gctx ctx pc first =
        run_thread_loop tid block g' c' (pc + 1) false := by
      rw [run_thread_loop, dif_pos hlt]
      simp only [if_neg hsync, hrun']
    have hexec' : execProg tid block (k + 1) (gctx, ctx, pc) =
        some (gctx', ctx', pc + (k + 1)) := by
      have hgg : block.get? pc = some (block.get ⟨pc, hlt⟩) :=
        List.get?_eq_some.mpr ⟨hlt, rfl⟩
      show (match block.get? pc with
        | none => none
        | some stmt =>
          match run_statement stmt gctx ctx tid with
          | (gctx', ctx', .inl .progress) => execProg tid block k (gctx', ctx', pc + 1)
          | _ => none) = some (gctx', ctx', pc + (k + 1))
      rw [hgg]
      dsimp only
      rw [hrun']
      dsimp only
      rw [hexec]
      have h2 : pc + 1 + k = pc + (k + 1) := by omega
      rw [h2]
    have hnosync : ∀ j, j < k + 1 → (j ≠ 0 ∨ first = false) →
        ∀ s, block.get? (pc + j) = some s → is_syncing s = false := by
      intro j hj hj0 s hs
      cases j with
      | zero =>
        have hfirst : first = false := by
          rcases hj0 with h | h
          · exact absurd rfl h
          · exact h
        have hseq : s = block.get ⟨pc, hlt⟩ := by
          rw [Nat.add_zero] at hs
          have hget : block.get? pc = some (block.get ⟨pc, hlt⟩) :=
            List.get?_eq_some.mpr ⟨hlt, rfl⟩
          rw [hs] at hget
          exact Option.some.inj hget
        subst hseq
        cases hsy : is_syncing (block.get ⟨pc, hlt⟩) with
        | false => rfl
        | true => exact absurd (by rw [hfirst]; simp [hsy]) hsync
      | succ j' =>
        have hj' : j' < k := by omega
        have harr : pc + 1 + j' = pc + (j' + 1) := by omega
        apply hnosyncIH j' hj' (Or.inr rfl) s
        rw [harr]
        exact hs
    refine ⟨k + 1, gctx', ctx', hexec', hnosync, ?_⟩
    have hpk : pc + 1 + k = pc + (k + 1) := by omega
    rcases hcase with ⟨stmt', h1, h2, h3, h4⟩ | ⟨stmt', g'', c'', h1, h2, h3⟩ |
      ⟨stmt', g'', c'', t, h1, h2, h3⟩ | ⟨h1, h2⟩
    · exact Or.inl ⟨stmt', by rw [← hpk]; exact h1, h2, Or.inl (by omega),
        by rw [hloopeq, h4, hpk]⟩
    · refine Or.inr (Or.inl ⟨stmt', g'', c'', by rw [← hpk]; exact h1, h2, ?_⟩)
      rw [hloopeq, h3, hpk]
      have hk1 : ¬(k = 0 ∧ false = true) := by simp
      have hk2 : ¬(k + 1 = 0 ∧ first = true) := by simp
      rw [if_neg hk1, if_neg hk2]
    · exact Or.inr (Or.inr (Or.inl ⟨stmt', g'', c'', t, by rw [← hpk]; exact h1, h2,
        by rw [hloopeq, h3, hpk]⟩))
    · exact Or.inr (Or.inr (Or.inr ⟨by omega, by rw [hloopeq, h2, hpk]⟩))
  · -- pc walked past the end: completed
    intro gctx ctx pc first hlt
    refine ⟨0, gctx, ctx, rfl, fun j hj => absurd hj (Nat.not_lt_zero j),
      Or.inr (Or.inr (Or.inr ⟨by omega, ?_⟩))⟩
    rw [run_thread_loop, dif_neg hlt]
    simp only [Nat.add_zero]

/-- C3: for a non-terminated thread, `run_thread_to_sync` executes statements
one at a time from the thread's pc (`execProg` witnesses the `k` executed
statements, each returning progress), none of the executed statements after
the first being a join/lock/unlock, and then exits in exactly one of four
ways: it stops *without executing* a syncing statement only when at least one
statement was already executed this invocation (`k ≠ 0`), returning progress;
on a blocking statement it returns progress iff at least one statement was
executed (`k = 0` gives no-progress); on a terminating statement it marks the
thread with that status and propagates it; and when the pc walks past the end
of the block it marks the thread completed and returns completed. -/
theorem run_thread_to_sync_spec (gctx : GlobalContext) (tid : Nat) (th : Thread)
    (hth : gctx.threads.get? tid = some th) (hterm : th.terminated = none) :
    ∃ k gctx' ctx',
      execProg tid th.block.2 k (gctx, th.ctx, th.pc) = some (gctx', ctx', th.pc + k) ∧
      (∀ j, j < k → j ≠ 0 →
        ∀ s, th.block.2.get? (th.pc + j) = some s → is_syncing s = false) ∧
      ((∃ stmt, th.block.2.get? (th.pc + k) = some stmt ∧ is_syncing stmt = true ∧
          k ≠ 0 ∧
          run_thread_to_sync gctx tid =
            (write_back gctx' tid ctx' (th.pc + k) none, .inl .progress)) ∨
       (∃ stmt g'' c'', th.block.2.get? (th.pc + k) = some stmt ∧
          run_statement stmt gctx' ctx' tid = (g'', c'', .inl .no_progress) ∧
          run_thread_to_sync gctx tid =
            (write_back g'' tid c'' (th.pc + k) none,
             .inl (if k = 0 then ProgressStatus.no_progress
                   else ProgressStatus.progress))) ∨
       (∃ stmt g'' c'' t, th.block.2.get? (th.pc + k) = some stmt ∧
          run_statement stmt gctx' ctx' tid = (g'', c'', .inr t) ∧
          run_thread_to_sync gctx tid =
            (write_back g'' tid c'' (th.pc + k) (some t), .inr t)) ∨
       (th.block.2.length ≤ th.pc + k ∧
          run_thread_to_sync gctx tid =
            (write_back gctx' tid ctx' (th.pc + k) (some .completed), .inr .completed))) := by
  have hrts : run_thread_to_sync gctx tid =
      run_thread_loop tid th.block.2 gctx th.ctx th.pc true := by
    simp only [run_thread_to_sync, hth, hterm]
  obtain ⟨k, gctx', ctx', hexec, hnosync, hcase⟩ :=
    run_thread_loop_spec tid th.block.2 gctx th.ctx th.pc true
  refine ⟨k, gctx', ctx', hexec, fun j hj hj0 => hnosync j hj (Or.inl hj0), ?_⟩
  rcases hcase with ⟨stmt, h1, h2, h3, h4⟩ | ⟨stmt, g'', c'', h1, h2, h3⟩ |
    ⟨stmt, g'', c'', t, h1, h2, h3⟩ | ⟨h1, h2⟩
  · refine Or.inl ⟨stmt, h1, h2, ?_, by rw [hrts, h4]⟩
    rcases h3 with h3 | h3
    · exact h3
    · cases h3
  · refine Or.inr (Or.inl ⟨stmt, g'', c'', h1, h2, ?_⟩)
    rw [hrts, h3]
    by_cases hk : k = 0
    · simp [hk]
    · simp [hk]
  · exact Or.inr (Or.inr (Or.inl ⟨stmt, g'', c'', t, h1, h2, by rw [hrts, h3]⟩))
  · exact Or.inr (Or.inr (Or.inr ⟨h1, by rw [hrts, h2]⟩))

/-- C3 witness: `run_thread_to_sync_spec` instantiated on the concrete spawn
scenario (thread 0 executes one statement and then stops in front of the
`lock m` sync point). -/
theorem run_thread_to_sync_spec_witness :
    ∃ k gctx' ctx',
      execProg 0 spawnMain k (spawnGctx, emptyTctx, 0) = some (gctx', ctx', 0 + k) ∧
      (∀ j, j < k → j ≠ 0 →
        ∀ s, spawnMain.get? (0 + j) = some s → is_syncing s = false) ∧
      ((∃ stmt, spawnMain.get? (0 + k) = some stmt ∧ is_syncing stmt = true ∧
          k ≠ 0 ∧
          run_thread_to_sync spawnGctx 0 =
            (write_back gctx' 0 ctx' (0 + k) none, .inl .progress)) ∨
       (∃ stmt g'' c'', spawnMain.get? (0 + k) = some stmt ∧
          run_statement stmt gctx' ctx' 0 = (g'', c'', .inl .no_progress) ∧
          run_thread_to_sync spawnGctx 0 =
            (write_back g'' 0 c'' (0 + k) none,
             .inl (if k = 0 then ProgressStatus.no_progress
                   else ProgressStatus.progress))) ∨
       (∃ stmt g'' c'' t, spawnMain.get? (0 + k) = some stmt ∧
          run_statement stmt gctx' ctx' 0 = (g'', c'', .inr t) ∧
          run_thread_to_sync spawnGctx 0 =
            (write_back g'' 0 c'' (0 + k) (some t), .inr t)) ∨
       (spawnMain.length ≤ 0 + k ∧
          run_thread_to_sync spawnGctx 0 =
            (write_back gctx' 0 ctx' (0 + k) (some .completed), .inr .completed))) :=
  run_thread_to_sync_spec spawnGctx 0 ⟨emptyTctx, (0, spawnMain), 0, none⟩ rfl rfl

/-! ### C4: the model checker's scheduling step does not advance spawned
threads -/

/-- C4 (evidence of the divergence): in the spawn scenario, one scheduling
step of the model checker — which is exactly one `run_thread_to_sync` call
(interpreter.cc:920,933,945; note the `TODO: Check for newly spawned threads`
at interpreter.cc:922) — runs thread 0 up to its `lock m` sync point and
leaves the freshly spawned thread 1 at `pc = 0`, not terminated, i.e. *not*
advanced to its own first sync point within the same scheduler turn; whereas
one round of the concrete scheduler `run_threads_to_sync` (whose loop bound
re-reads the growing thread count) advances thread 1 to completion within
the same round, which is the behaviour the claim describes. -/
theorem model_check_spawn_not_advanced :
    ((run_thread_to_sync spawnGctx 0).1.threads.get? 1).map Thread.pc = some 0 ∧
    ((run_thread_to_sync spawnGctx 0).1.threads.get? 1).map Thread.terminated =
      some none ∧
    (run_thread_to_sync spawnGctx 0).2 = .inl .progress ∧
    (run_threads_to_sync 4 spawnGctx).map
        (fun r => (r.1.threads.get? 1).map Thread.terminated) =
      some (some (some .completed)) := by
  have h0 : run_thread_to_sync spawnGctx 0 =
      (⟨[⟨⟨[("$t", 1)], []⟩, (0, spawnMain), 1, none⟩,
         ⟨⟨[], []⟩, (1, spawnBody), 0, none⟩], [], [], 0⟩,
       .inl .progress) := by
    show run_thread_loop 0 spawnMain spawnGctx emptyTctx 0 true = _
    rw [run_thread_loop]
    show run_thread_loop 0 spawnMain
      ⟨[⟨emptyTctx, (0, spawnMain), 0, none⟩, ⟨⟨[], []⟩, (1, spawnBody), 0, none⟩],
       [], [], 0⟩
      ⟨[("$t", 1)], []⟩ 1 false = _
    rw [run_thread_loop]
    rfl
  have hA : run_thread_to_sync
      (⟨[⟨⟨[("$t", 1)], []⟩, (0, spawnMain), 1, none⟩,
         ⟨⟨[], []⟩, (1, spawnBody), 0, none⟩], [], [], 0⟩ : GlobalContext) 1 =
      (⟨[⟨⟨[("$t", 1)], []⟩, (0, spawnMain), 1, none⟩,
         ⟨⟨[], []⟩, (1, spawnBody), 1, some .completed⟩], [], [], 0⟩,
       .inr .completed) := by
    show run_thread_loop 1 spawnBody
      ⟨[⟨⟨[("$t", 1)], []⟩, (0, spawnMain), 1, none⟩,
        ⟨⟨[], []⟩, (1, spawnBody), 0, none⟩], [], [], 0⟩
      ⟨[], []⟩ 0 true = _
    rw [run_thread_loop]
    show run_thread_loop 1 spawnBody
      ⟨[⟨⟨[("$t", 1)], []⟩, (0, spawnMain), 1, none⟩,
        ⟨⟨[], []⟩, (1, spawnBody), 0, none⟩], [], [], 0⟩
      ⟨[], []⟩ 1 false = _
    rw [run_thread_loop]
    rfl
  refine ⟨by rw [h0]; rfl, by rw [h0]; rfl, by rw [h0], ?_⟩
  simp only [run_threads_to_sync, run_threads_loop, h0, hA]
  rfl

/-! ### C6: terminal-state equality of the model checker -/

theorem nodup_map_inj {α β : Type} {f : α → β} {l : List α}
    (h : (l.map f).Nodup) {a b : α} (ha : a ∈ l) (hb : b ∈ l) (hf : f a = f b) :
    a = b := by
  induction l with
  | nil => simp at ha
  | cons x xs ih =>
    simp only [List.map_cons, List.nodup_cons] at h
    rcases List.mem_cons.mp ha with ha' | ha' <;> rcases List.mem_cons.mp hb with hb' | hb'
    · rw [ha', hb']
    · subst ha'
      exact absurd (hf ▸ List.mem_map.mpr ⟨b, hb', rfl⟩) h.1
    · subst hb'
      exact absurd (hf ▸ List.mem_map.mpr ⟨a, ha', rfl⟩) h.1
    · exact ih h.2 ha' hb'

theorem alist_proj_eqv {β γ : Type} (f : β → γ) (l1 l2 : List (String × β))
    (n1 : (l1.map Prod.fst).Nodup) (n2 : (l2.map Prod.fst).Nodup) :
    (l1.length = l2.length ∧ ∀ p ∈ l1, (lookupA l2 p.1).map f = some (f p.2)) ↔
    ∀ k, (lookupA l1 k).map f = (lookupA l2 k).map f := by
  constructor
  · rintro ⟨hlen, hmem⟩ k
    cases h1 : lookupA l1 k with
    | some b =>
      have hb := lookupA_mem h1
      exact (hmem (k, b) hb).symm
    | none =>
      have hset : (l1.map Prod.fst).toFinset = (l2.map Prod.fst).toFinset := by
        apply Finset.eq_of_subset_of_card_le
        · intro x hx
          rw [List.mem_toFinset] at hx ⊢
          obtain ⟨p, hp, rfl⟩ := List.mem_map.mp hx
          have hv := hmem p hp
          have hne : lookupA l2 p.1 ≠ none := by
            intro hq
            rw [hq] at hv
            cases hv
          rw [Ne, lookupA_eq_none] at hne
          exact not_not.mp hne
        · rw [List.toFinset_card_of_nodup n1, List.toFinset_card_of_nodup n2]
          simp [hlen]
      have h2 : lookupA l2 k = none := by
        rw [lookupA_eq_none]
        intro hk
        have hmem2 : k ∈ (l2.map Prod.fst).toFinset := List.mem_toFinset.mpr hk
        rw [← hset, List.mem_toFinset] at hmem2
        exact (lookupA_eq_none l1 k).mp h1 hmem2
      rw [h2]
  · intro hpt
    have key : ∀ x, lookupA l1 x = none ↔ lookupA l2 x = none := by
      intro x
      have h := hpt x
      cases h1 : lookupA l1 x <;> cases h2 : lookupA l2 x <;>
        rw [h1, h2] at h <;> simp_all
    constructor
    · have hset : (l1.map Prod.fst).toFinset = (l2.map Prod.fst).toFinset := by
        ext x
        rw [List.mem_toFinset, List.mem_toFinset]
        rw [← not_iff_not]
        rw [← lookupA_eq_none, ← lookupA_eq_none]
        exact key x
      have hcard := congrArg Finset.card hset
      rw [List.toFinset_card_of_nodup n1, List.toFinset_card_of_nodup n2] at hcard
      simpa using hcard
    · intro p hp
      have h1 : lookupA l1 p.1 = some p.2 := lookupA_of_mem_nodup n1 hp
      have h := hpt p.1
      rw [h1] at h
      exact h.symm

theorem global_vals_eq_iff (g1 g2 : Globals)
    (n1 : (g1.map Prod.fst).Nodup) (n2 : (g2.map Prod.fst).Nodup) :
    global_vals_eq g1 g2 = true ↔
      ∀ v, (lookupA g1 v).map Global.val = (lookupA g2 v).map Global.val := by
  rw [← alist_proj_eqv Global.val g1 g2 n1 n2]
  simp only [global_vals_eq, Bool.and_eq_true, beq_iff_eq, List.all_eq_true]
  apply and_congr Iff.rfl
  apply forall₂_congr
  intro p hp
  cases h2 : lookupA g2 p.1 with
  | none => simp
  | some q =>
    simp only [beq_iff_eq, Option.map_some', Option.some.injEq]
    exact eq_comm

theorem locals_eq_iff (l1 l2 : List (String × Nat))
    (n1 : (l1.map Prod.fst).Nodup) (n2 : (l2.map Prod.fst).Nodup) :
    locals_eq l1 l2 = true ↔ ∀ r, lookupA l1 r = lookupA l2 r := by
  have hmapid : ∀ o : Option Nat, o.map (fun n => n) = o := by
    intro o
    cases o <;> rfl
  have halist := alist_proj_eqv (fun n : Nat => n) l1 l2 n1 n2
  simp only [hmapid] at halist
  rw [← halist]
  simp only [locals_eq, Bool.and_eq_true, beq_iff_eq, List.all_eq_true]

theorem thread_eq_iff (t1 t2 : Thread)
    (n1g : (t1.ctx.globals.map Prod.fst).Nodup) (n2g : (t2.ctx.globals.map Prod.fst).Nodup)
    (n1l : (t1.ctx.locals.map Prod.fst).Nodup) (n2l : (t2.ctx.locals.map Prod.fst).Nodup) :
    thread_eq t1 t2 = true ↔ thread_match t1 t2 := by
  simp only [thread_eq, Bool.and_eq_true, beq_iff_eq]
  rw [global_vals_eq_iff _ _ n1g n2g, locals_eq_iff _ _ n1l n2l]
  unfold thread_match
  tauto

/-- C6: two process states compare equal under the model checker's
terminal-state equality iff they have the same thread and lock counts, every
lock name has the same owner (or absence of owner) in both, and every thread
of the first is matched — by identity of its statement-block reference — to a
thread of the second with equal pc, termination status and registers, and
globals agreeing on value for every variable, histories and commit
identifiers ignored.  The nodup hypotheses state that the embedded
association lists are maps (always true of `std::unordered_map`) and that
block identities are distinct across threads (true in every reachable state,
where each spawn node is evaluated at most once). -/
theorem gctx_eq_spec (g1 g2 : GlobalContext)
    (hb2 : (g2.threads.map (fun t => t.block.1)).Nodup)
    (hl1 : (g1.locks.map Prod.fst).Nodup) (hl2 : (g2.locks.map Prod.fst).Nodup)
    (hn1 : ∀ t ∈ g1.threads,
      (t.ctx.globals.map Prod.fst).Nodup ∧ (t.ctx.locals.map Prod.fst).Nodup)
    (hn2 : ∀ t ∈ g2.threads,
      (t.ctx.globals.map Prod.fst).Nodup ∧ (t.ctx.locals.map Prod.fst).Nodup) :
    gctx_eq g1 g2 = true ↔
      g1.threads.length = g2.threads.length ∧
      g1.locks.length = g2.locks.length ∧
      (∀ name, (lookupA g1.locks name).map Lock.owner =
        (lookupA g2.locks name).map Lock.owner) ∧
      (∀ t ∈ g1.threads, ∃ t2 ∈ g2.threads, thread_match t t2) := by
  simp only [gctx_eq, Bool.and_eq_true, beq_iff_eq, List.all_eq_true]
  constructor
  · rintro ⟨⟨⟨hTlen, hLlen⟩, hT⟩, hL⟩
    refine ⟨hTlen, hLlen, ?_, ?_⟩
    · apply (alist_proj_eqv Lock.owner g1.locks g2.locks hl1 hl2).mp
      refine ⟨hLlen, ?_⟩
      intro p hp
      have hcheck := hL p hp
      cases h2 : lookupA g2.locks p.1 with
      | none =>
        rw [h2] at hcheck
        cases hcheck
      | some l2 =>
        rw [h2] at hcheck
        simp only [beq_iff_eq] at hcheck
        simp [hcheck]
    · intro t ht
      have hcheck := hT t ht
      cases hf : g2.threads.find? (fun t2 => t2.block.1 == t.block.1) with
      | none =>
        rw [hf] at hcheck
        cases hcheck
      | some t2 =>
        rw [hf] at hcheck
        have ht2 : t2 ∈ g2.threads := List.mem_of_find?_eq_some hf
        refine ⟨t2, ht2, ?_⟩
        exact (thread_eq_iff t t2 (hn1 t ht).1 (hn2 t2 ht2).1
          (hn1 t ht).2 (hn2 t2 ht2).2).mp hcheck
  · rintro ⟨hTlen, hLlen, hLpt, hT⟩
    refine ⟨⟨⟨hTlen, hLlen⟩, ?_⟩, ?_⟩
    · intro t ht
      obtain ⟨t2, ht2, hm⟩ := hT t ht
      have hsome : (g2.threads.find? (fun x => x.block.1 == t.block.1)).isSome := by
        rw [List.find?_isSome]
        exact ⟨t2, ht2, by simp [hm.1]⟩
      obtain ⟨t2', hf⟩ := Option.isSome_iff_exists.mp hsome
      rw [hf]
      have ht2' : t2' ∈ g2.threads := List.mem_of_find?_eq_some hf
      have hpred := List.find?_some hf
      simp only [beq_iff_eq] at hpred
      have heq : t2' = t2 := by
        apply nodup_map_inj hb2 ht2' ht2
        rw [hpred, hm.1]
      subst heq
      exact (thread_eq_iff t t2' (hn1 t ht).1 (hn2 t2' ht2').1
        (hn1 t ht).2 (hn2 t2' ht2').2).mpr hm
    · intro p hp
      have hv := hLpt p.1
      have h1 : lookupA g1.locks p.1 = some p.2 := lookupA_of_mem_nodup hl1 hp
      rw [h1] at hv
      cases h2 : lookupA g2.locks p.1 with
      | none =>
        rw [h2] at hv
        cases hv
      | some l2 =>
        rw [h2] at hv
        simp only [Option.map_some'] at hv
        injection hv with hv
        simp [hv]

/-- C6 witness: `gctx_eq_spec` on two concrete states whose threads were
spawned in different orders, with differing histories, pending commits,
lock-stored globals, caches and uuid counters — and, via the established
equivalence, the concrete fact that the two states do compare equal. -/
theorem gctx_eq_spec_witness :
    (gctx_eq eqG1 eqG2 = true ↔
      eqG1.threads.length = eqG2.threads.length ∧
      eqG1.locks.length = eqG2.locks.length ∧
      (∀ name, (lookupA eqG1.locks name).map Lock.owner =
        (lookupA eqG2.locks name).map Lock.owner) ∧
      (∀ t ∈ eqG1.threads, ∃ t2 ∈ eqG2.threads, thread_match t t2)) ∧
    gctx_eq eqG1 eqG2 = true := by
  have hiff := gctx_eq_spec eqG1 eqG2 (by decide) (by decide) (by decide)
    (by decide) (by decide)
  refine ⟨hiff, ?_⟩
  apply hiff.mpr
  refine ⟨rfl, rfl, ?_, ?_⟩
  · intro name
    by_cases h : name = "m"
    · subst h
      rfl
    · have hm : ¬("m" = name) := fun hq => h hq.symm
      have h1 : lookupA eqG1.locks name = none := by
        simp [eqG1, lookupA, hm]
      have h2 : lookupA eqG2.locks name = none := by
        simp [eqG2, lookupA, hm]
      rw [h1, h2]
  · intro t ht
    rcases List.mem_cons.mp ht with h | h
    · refine ⟨eqThreadA', by simp [eqG2], ?_⟩
      subst h
      refine ⟨rfl, rfl, rfl, fun r => rfl, ?_⟩
      intro v
      by_cases hv : v = "x"
      · subst hv
        rfl
      · have hx : ¬("x" = v) := fun hq => hv hq.symm
        have h1 : lookupA eqThreadA.ctx.globals v = none := by
          simp [eqThreadA, lookupA, hx]
        have h2 : lookupA eqThreadA'.ctx.globals v = none := by
          simp [eqThreadA', lookupA, hx]
        rw [h1, h2]
    · rcases List.mem_cons.mp h with h' | h'
      · refine ⟨eqThreadB, by simp [eqG2], ?_⟩
        subst h'
        exact ⟨rfl, rfl, rfl, fun r => rfl, fun v => rfl⟩
      · simp at h'

end Gitmem
